import Mathlib

/-!
Verification development for the `xmlem` in-memory XML document model.

The Rust sources embedded here are `src/document.rs` (document model,
canonicalizing sort, reader loop), `src/display.rs` (serializer and entity
escaping) and `src/key.rs` (node handle kinds).  Strings are modelled as
`List Char`; Rust's `String` ordering is byte-wise lexicographic on UTF-8,
which coincides with code-point-wise lexicographic order, modelled by
`listCmp`.  Arena handles (`DocKey` slots) are modelled by keeping each
node's payload inline in an inductive tree: the document under study is
always a well-formed tree, where every handle lookup succeeds and node
identity is the position in the tree.
-/

/-- Characters of a Rust `String` / `&str`. -/
abbrev Chars := List Char

/-- Convert a Lean string literal to the `Chars` representation. -/
def str (s : String) : Chars := s.data

/-- Comparison of two chars by code point.  Mirrors Rust `char`/byte order:
UTF-8 byte-wise order on strings equals code-point lexicographic order. -/
def charCmp (a b : Char) : Ordering := compare a.val.toNat b.val.toNat

/-- Lexicographic comparison of strings, mirroring Rust's `Ord for String`. -/
def listCmp : Chars → Chars → Ordering
  | [], [] => .eq
  | [], _ :: _ => .lt
  | _ :: _, [] => .gt
  | a :: as, b :: bs =>
    match charCmp a b with
    | .eq => listCmp as bs
    | o => o

/-- A document node, with its payload inline.

Mirrors `Node` of `src/key.rs` (the six handle kinds) paired with the
corresponding `NodeValue` payload of `src/value.rs` as used by
`src/document.rs`/`src/display.rs`: `Element` carries a qualified name, its
attribute table and its ordered children; the other kinds carry their text.
Qualified names (external `qname` crate) are compared on the full prefixed
form, so they are modelled by that prefixed string.  The attribute table
(`IndexMap<QName, String>`) is an insertion-ordered map, modelled as an
ordered association list with unique keys. -/
inductive XNode where
  | element (name : Chars) (attrs : List (Chars × Chars)) (children : List XNode)
  | text (s : Chars)
  | cdataSection (s : Chars)
  | processingInstruction (s : Chars)
  | comment (s : Chars)
  | documentType (s : Chars)

/-- The XML declaration (`Declaration` of `src/document.rs`). -/
structure XDecl where
  version : Option Chars
  encoding : Option Chars
  standalone : Option Chars

/-- A document: declaration, nodes before the root, the root element
(name, attributes, children), and nodes after the root.  Mirrors `Document`
of `src/document.rs` with the arena flattened into the tree. -/
structure XDoc where
  decl : Option XDecl
  before : List XNode
  rootName : Chars
  rootAttrs : List (Chars × Chars)
  rootChildren : List XNode
  after : List XNode

/-- `IndexMap::get`: value of the first (unique) entry with the given key. -/
def lookupAttr (attrs : List (Chars × Chars)) (k : Chars) : Option Chars :=
  match attrs with
  | [] => none
  | (k', v) :: rest => if k' = k then some v else lookupAttr rest k

/-- `IndexMap::insert`: overwrite in place if the key exists, else push. -/
def attrsInsert (attrs : List (Chars × Chars)) (k v : Chars) :
    List (Chars × Chars) :=
  match attrs with
  | [] => [(k, v)]
  | (k', v') :: rest =>
    if k' = k then (k', v) :: rest else (k', v') :: attrsInsert rest k v

/-- The interned `id` attribute name (`ATTR_ID` of `src/document.rs`). -/
def attrIdName : Chars := str "id"

/-- Whether a node is a `Text` node. -/
def isTextNode : XNode → Bool
  | .text _ => true
  | _ => false

/-- Whether a node is an `Element` node. -/
def isElementNode : XNode → Bool
  | .element _ _ _ => true
  | _ => false

/-- `ElementAndContext` of `src/document.rs`: an element of a sibling
sequence together with the "pre" nodes collected before it and its name and
attribute table (in the source, `elem_val.name` and the `attrs` side-table
entry).  Nodes are paired with their ordinals (see `ordOf` below). -/
structure ElementAndContext where
  pre : List (XNode × Nat)
  elem : XNode
  name : Chars
  attrs : List (Chars × Chars)

/-- Modelled from the spec: `Node::to_ordinal` (used by `ord_node`) is not
among the provided sources; per the spec it is "a stable original-appearance
ordinal", modelled as the node's index in the sibling sequence being sorted.
`enumerate` pairs each node with that ordinal. -/
def enumerate : Nat → List XNode → List (XNode × Nat)
  | _, [] => []
  | i, n :: ns => (n, i) :: enumerate (i + 1) ns

/-- `ord_node` of `src/document.rs`: compare two nodes by ordinal. -/
def ord_node (a b : XNode × Nat) : Ordering := compare a.2 b.2

/-- Pointwise comparison of two sequences up to the shorter length, mirroring
the `for _ai in 0..min_len` loops of `ord_elem` (both iterators yield `Some`
for the first `min_len` steps, so the `Option` comparison is on the items). -/
def cmpPointwise : List Chars → List Chars → Ordering
  | a :: as, b :: bs =>
    match listCmp a b with
    | .eq => cmpPointwise as bs
    | o => o
  | _, _ => .eq

/-- `ord_elem` of `src/document.rs`: the composite element ordering.
1. element name; 2. the `id` attribute value when both elements carry one;
3. attribute names pointwise up to the shorter length; 4. attribute count;
5. attribute values pointwise. -/
def ord_elem (ec1 ec2 : ElementAndContext) : Ordering :=
  let nameOrd := listCmp ec1.name ec2.name
  if nameOrd ≠ .eq then nameOrd
  else
    let idOrd :=
      match lookupAttr ec1.attrs attrIdName, lookupAttr ec2.attrs attrIdName with
      | some v1, some v2 => listCmp v1 v2
      | _, _ => .eq
    if idOrd ≠ .eq then idOrd
    else
      let keysOrd := cmpPointwise (ec1.attrs.map Prod.fst) (ec2.attrs.map Prod.fst)
      if keysOrd ≠ .eq then keysOrd
      else
        let numOrd := compare ec1.attrs.length ec2.attrs.length
        if numOrd ≠ .eq then numOrd
        else cmpPointwise (ec1.attrs.map Prod.snd) (ec2.attrs.map Prod.snd)

/-- The composite ordering as worded by the specification: the six steps
combined with `Ordering.then`, so the first mismatch decides and ties fall
through — (1) qualified name; (2) the `id` attribute value when both carry
one; (3) attribute keys pointwise up to the shorter length; (4) attribute
count; (5) attribute values pointwise; (6) equal. -/
def ord_elem_spec (ec1 ec2 : ElementAndContext) : Ordering :=
  (listCmp ec1.name ec2.name).then
    ((match lookupAttr ec1.attrs attrIdName, lookupAttr ec2.attrs attrIdName with
      | some v1, some v2 => listCmp v1 v2
      | _, _ => .eq).then
      ((cmpPointwise (ec1.attrs.map Prod.fst) (ec2.attrs.map Prod.fst)).then
        ((compare ec1.attrs.length ec2.attrs.length).then
          (cmpPointwise (ec1.attrs.map Prod.snd) (ec2.attrs.map Prod.snd)))))

/-- The "a sorts no later than b" relation induced by `ord_elem`.  Rust's
`Vec::sort_by` is a stable sort; it is modelled by Mathlib's stable
`List.insertionSort` under this relation (a stable sort for a total
pre-order is unique, so the two agree). -/
def ecLe (a b : ElementAndContext) : Prop := ord_elem a b ≠ .gt

instance : DecidableRel ecLe := fun a b => inferInstanceAs (Decidable (ord_elem a b ≠ .gt))

/-- The relation induced by `ord_node` for the stable sorts of the "pre" and
"post" groups. -/
def ordNodeLe (a b : XNode × Nat) : Prop := ord_node a b ≠ .gt

instance : DecidableRel ordNodeLe := fun a b => inferInstanceAs (Decidable (ord_node a b ≠ .gt))

/-- The partition loop of `Document::sort_nodes` (src/document.rs lines
156-181): walk the sibling nodes accumulating the "pre" group (comments and
CDATA sections, kept for the next elements), the elements (each carrying a
clone of the current "pre" accumulator), the `has_text` flag and the "post"
group (text and processing instructions).  A `DocumentType` node hits a
`panic!`, modelled by `none`.  Note that the source never clears `pre`
after attaching it to an element. -/
def partitionNodes (pre : List (XNode × Nat)) (elems : List ElementAndContext)
    (hasText : Bool) (post : List (XNode × Nat)) :
    List (XNode × Nat) → Option (List ElementAndContext × Bool × List (XNode × Nat))
  | [] => some (elems, hasText, post)
  | (n, i) :: rest =>
    match n with
    | .element name attrs children =>
      partitionNodes pre
        (elems ++ [⟨pre, .element name attrs children, name, attrs⟩])
        hasText post rest
    | .text s => partitionNodes pre elems true (post ++ [(.text s, i)]) rest
    | .cdataSection s =>
      partitionNodes (pre ++ [(.cdataSection s, i)]) elems hasText post rest
    | .processingInstruction s =>
      partitionNodes pre elems hasText (post ++ [(.processingInstruction s, i)]) rest
    | .comment s =>
      partitionNodes (pre ++ [(.comment s, i)]) elems hasText post rest
    | .documentType _ => none

/-- `Document::sort_nodes` (src/document.rs lines 149-206): sibling sort.
Sequences of fewer than two nodes are returned unchanged; a sequence with
both text and elements is returned unchanged; otherwise the elements are
stable-sorted by `ord_elem`, the post group by ordinal, and the result is,
for each element in sorted order, its ordinal-sorted pre context then the
element, followed by the ordinal-sorted post group. -/
def sort_nodes (nodesOrig : List XNode) : Option (List XNode) :=
  if nodesOrig.length < 2 then some nodesOrig
  else
    match partitionNodes [] [] false [] (enumerate 0 nodesOrig) with
    | none => none
    | some (elems, hasText, post) =>
      if hasText && !elems.isEmpty then some nodesOrig
      else
        let elemsSorted := elems.insertionSort ecLe
        let postSorted := post.insertionSort ordNodeLe
        some
          ((elemsSorted.map fun ec =>
              ((ec.pre.insertionSort ordNodeLe).map Prod.fst) ++ [ec.elem]).flatten
            ++ postSorted.map Prod.fst)

/-- The attribute ordering used by `Document::sort_attrs`
(`qn1.cmp(qn2)` on qualified names). -/
def attrLe (a b : Chars × Chars) : Prop := listCmp a.1 b.1 ≠ .gt

instance : DecidableRel attrLe := fun a b => inferInstanceAs (Decidable (listCmp a.1 b.1 ≠ .gt))

/-- `Document::sort_attrs` restricted to one element's attribute table:
stable sort of the entries by qualified name. -/
def sortAttrsTable (attrs : List (Chars × Chars)) : List (Chars × Chars) :=
  attrs.insertionSort attrLe

mutual

/-- `Document::sort_attrs` over a subtree: the source sorts the attribute
table of every element in the arena; in the tree model this sorts the
attribute table of every element node recursively. -/
def sortAttrsNode : XNode → XNode
  | .element n a ch => .element n (sortAttrsTable a) (sortAttrsList ch)
  | .text s => .text s
  | .cdataSection s => .cdataSection s
  | .processingInstruction s => .processingInstruction s
  | .comment s => .comment s
  | .documentType s => .documentType s

/-- `sortAttrsNode` mapped over a list of nodes. -/
def sortAttrsList : List XNode → List XNode
  | [] => []
  | n :: ns => sortAttrsNode n :: sortAttrsList ns

end

/-- `Document::sort` (src/document.rs lines 222-229): always sort every
attribute table; when `elements` is set, additionally sibling-sort `before`,
the root's direct children (`sort_node_value` sorts only the root's own
children list; it does not recurse into grandchildren) and `after`.  A
`panic!` in `sort_nodes` is modelled by `none`. -/
def XDoc.sort (d : XDoc) (elements : Bool) : Option XDoc :=
  let d' : XDoc :=
    { d with
      rootAttrs := sortAttrsTable d.rootAttrs
      before := sortAttrsList d.before
      rootChildren := sortAttrsList d.rootChildren
      after := sortAttrsList d.after }
  if elements then
    match sort_nodes d'.before with
    | none => none
    | some b =>
      match sort_nodes d'.rootChildren with
      | none => none
      | some c =>
        match sort_nodes d'.after with
        | none => none
        | some a => some { d' with before := b, rootChildren := c, after := a }
  else some d'

/-- `EntityMode` of src/display.rs; `standard` is the `Default`. -/
inductive EntityMode where
  | standard
  | hex
deriving DecidableEq

/-- Serializer configuration (`Config` of src/display.rs). -/
structure SerConfig where
  is_pretty : Bool
  indent : Nat
  max_line_length : Nat
  entity_mode : EntityMode
  indent_text_nodes : Bool

/-- `Config::default()` (the derived `Default`: everything false/zero). -/
def SerConfig.default : SerConfig :=
  ⟨false, 0, 0, .standard, false⟩

/-- `Config::default_pretty()`. -/
def SerConfig.defaultPretty : SerConfig :=
  ⟨true, 2, 120, .standard, true⟩

/-- The printing `State` of src/display.rs (the `doc`/`key` fields are the
node being printed, which the tree model passes structurally). -/
structure SerState where
  is_pretty : Bool
  indent : Nat

/-- `State::with_indent`. -/
def SerState.withIndent (st : SerState) (cfg : SerConfig) : SerState :=
  if !cfg.is_pretty then st else ⟨st.is_pretty, st.indent + cfg.indent⟩

/-- `State::without_pretty`. -/
def SerState.withoutPretty (_st : SerState) : SerState := ⟨false, 0⟩

/-- Modelled from the spec: the Unicode character database (external
`unic_ucd` crate) used by `process_entities`.  `isSeparator` is general
category Zs/Zl/Zp, `isOther` is Cc/Cf/Cn/Co/Cs.  Theorems quantify over the
classifier; `asciiUcd` instantiates it, correctly for U+0000..U+00A0. -/
structure Ucd where
  isSeparator : Char → Bool
  isOther : Char → Bool

/-- Non-breaking space. -/
def nbsp : Char := Char.ofNat 0xA0

/-- The Unicode general category classification restricted to code points
up to U+00A0 (all that the concrete theorems below use): C0 and C1 controls
and DEL are category Cc ("other"); space and NBSP are Zs ("separator"). -/
def asciiUcd : Ucd where
  isSeparator ch := ch = ' ' || ch = nbsp
  isOther ch :=
    ch.val.toNat ≤ 0x1f || ch.val.toNat = 0x7f ||
      (0x80 ≤ ch.val.toNat && ch.val.toNat ≤ 0x9f)

/-- Rust `char::is_ascii_control`. -/
def isAsciiControl (ch : Char) : Bool :=
  ch.val.toNat ≤ 0x1f || ch.val.toNat = 0x7f

/-- Rust `char::is_ascii_whitespace` (space, tab, newline, form feed, CR). -/
def isAsciiWhitespace (ch : Char) : Bool :=
  ch = ' ' || ch = '\t' || ch = '\n' || ch = Char.ofNat 0x0C || ch = '\r'

/-- One uppercase hex digit. -/
def hexDigit (n : Nat) : Char :=
  if n < 10 then Char.ofNat (48 + n) else Char.ofNat (55 + n)

/-- Uppercase hex digits of `n` (most significant first), no leading zeros,
empty for 0; `fuel` bounds the number of digits. -/
def toHexAux : Nat → Nat → Chars
  | 0, _ => []
  | fuel + 1, n => if n = 0 then [] else toHexAux fuel (n / 16) ++ [hexDigit (n % 16)]

/-- Uppercase hex rendering of `n` (Rust `{:X}`); 8 digits cover `u32`. -/
def toHex (n : Nat) : Chars :=
  if n = 0 then ['0'] else toHexAux 8 n

/-- Rust `format!("&#x{:>04X};", ch as u32)`: an uppercase hex numeric
character reference zero-padded to at least four digits. -/
def hexRef (ch : Char) : Chars :=
  let ds := toHex ch.val.toNat
  str "&#x" ++ (List.replicate (4 - ds.length) '0' ++ ds) ++ [';']

/-- The outer gate of `process_entities`: whether a character is one of the
five XML-special characters, an ASCII control, or in the separator/other
general categories. -/
def needsEntityProcessing (ucd : Ucd) (ch : Char) : Bool :=
  ch = '<' || ch = '>' || ch = '\'' || ch = '"' || ch = '&' ||
    isAsciiControl ch || ucd.isSeparator ch || ucd.isOther ch

/-- The per-character body of `process_entities` (src/display.rs lines
453-485), with the match arms in source order:
named entities for `&` (and `'`/`"` outside text) and `<`/`>` in `Standard`
mode; hex references for all five in `Hex` mode; hex references for
non-whitespace ASCII controls; otherwise keep the character when it is
"kept whitespace" or printable, else a hex reference. -/
def escapeChar (ucd : Ucd) (mode : EntityMode) (allowSeparators isText : Bool)
    (ch : Char) : Chars :=
  if mode = .standard ∧ ch = '&' then str "&amp;"
  else if mode = .standard ∧ ch = '\'' ∧ isText = false then str "&apos;"
  else if mode = .standard ∧ ch = '"' ∧ isText = false then str "&quot;"
  else if mode = .standard ∧ ch = '<' then str "&lt;"
  else if mode = .standard ∧ ch = '>' then str "&gt;"
  else if mode = .hex ∧ (ch = '&' ∨ ch = '\'' ∨ ch = '"' ∨ ch = '<' ∨ ch = '>')
    then hexRef ch
  else if ¬ isAsciiWhitespace ch ∧ isAsciiControl ch then hexRef ch
  else
    let isWs := ch ≠ nbsp ∧
      (ch = ' ' ∨ (allowSeparators ∧ (isAsciiWhitespace ch ∨ ucd.isSeparator ch)))
    let isPrintable := ¬ (ucd.isSeparator ch ∨ ucd.isOther ch)
    if isWs ∨ isPrintable then [ch] else hexRef ch

/-- `process_entities` of src/display.rs: pass the string through untouched
when no character trips the outer gate (the `Cow::Borrowed` branch), else
rebuild it character by character. -/
def process_entities (ucd : Ucd) (input : Chars) (mode : EntityMode)
    (allowSeparators isText : Bool) : Chars :=
  if input.any (needsEntityProcessing ucd) then
    (input.map (escapeChar ucd mode allowSeparators isText)).flatten
  else input

/-- `{:>indent$}` applied to `""`: `n` spaces. -/
def pad (n : Nat) : Chars := List.replicate n ' '

/-- Rust `str::len`: the UTF-8 byte length. -/
def utf8Len (s : Chars) : Nat := (s.map fun c => c.utf8Size).sum

/-- One `name="value"` attribute rendering, value escaped in
non-separator, non-text mode. -/
def attrChunk (ucd : Ucd) (cfg : SerConfig) (k v : Chars) : Chars :=
  k ++ str "=\"" ++ process_entities ucd v cfg.entity_mode false false ++ ['"']

/-- The `line_length` computed by `fmt_attrs`: tag name + 2, plus
`name="value"` overhead (+4) for every attribute. -/
def fmtAttrsLineLength (tag : Chars) (attrs : List (Chars × Chars)) : Nat :=
  utf8Len tag + 2 +
    (attrs.map fun kv => utf8Len kv.1 + utf8Len kv.2 + 4).sum

/-- The second and later attributes in `fmt_attrs`: each preceded by a
newline plus indent when wrapping, else a single space. -/
def fmtAttrsRest (ucd : Ucd) (cfg : SerConfig) (isNewlines : Bool)
    (indented : Nat) : List (Chars × Chars) → Chars
  | [] => []
  | (k, v) :: rest =>
    (if isNewlines then '\n' :: pad indented else [' ']) ++
      attrChunk ucd cfg k v ++ fmtAttrsRest ucd cfg isNewlines indented rest

/-- `fmt_attrs` of src/display.rs: first attribute bare, the rest separated
by a space, or each on its own indented line when pretty and the projected
line length exceeds `max_line_length`. -/
def fmt_attrs (ucd : Ucd) (cfg : SerConfig) (tag : Chars) (st : SerState)
    (attrs : List (Chars × Chars)) : Chars :=
  let isNewlines := st.is_pretty && decide (cfg.max_line_length < fmtAttrsLineLength tag attrs)
  let st' := st.withIndent cfg
  match attrs with
  | [] => []
  | (k, v) :: rest =>
    attrChunk ucd cfg k v ++ fmtAttrsRest ucd cfg isNewlines st'.indent rest

/-- Whether a node is a Text or CDataSection node (the `has_text` check of
`ElementValue::print`). -/
def isTextOrCData : XNode → Bool
  | .text _ => true
  | .cdataSection _ => true
  | _ => false

/-- The `line_length` taken over only the first attribute (the
`attrs.iter().take(1)` fold in `ElementValue::print`). -/
def firstAttrLineLength (name : Chars) (attrs : List (Chars × Chars)) : Nat :=
  utf8Len name + 2 +
    ((attrs.take 1).map fun kv => utf8Len kv.1 + utf8Len kv.2 + 4).sum

mutual

/-- `NodeValue::print` of src/display.rs (lines 362-425), with the element
case being `ElementValue::print` (lines 248-359): childless elements render
as self-closing tags (`" />"` after the name or the attributes in both
branches); elements with children render an open tag, the children
(indented, or with pretty mode switched off for the subtree when it mixes
text and `indent_text_nodes` is off), and a close tag.  There is no
`NodeValue` variant for processing instructions (no API creates one), so
that case is dead code, modelled as the empty rendering. -/
def printNode (ucd : Ucd) (cfg : SerConfig) (st : SerState) : XNode → Chars
  | .element name attrs children =>
    if children.isEmpty then
      match attrs with
      | [] =>
        pad st.indent ++ ['<'] ++ name ++ str " />" ++
          (if st.is_pretty then ['\n'] else [])
      | _ :: _ =>
        let isNewlines := st.is_pretty &&
          decide (cfg.max_line_length < firstAttrLineLength name attrs)
        pad st.indent ++ ['<'] ++ name ++
          (if isNewlines then '\n' :: pad (st.indent + cfg.indent) else [' ']) ++
          fmt_attrs ucd cfg name st attrs ++ str " />" ++
          (if st.is_pretty then ['\n'] else [])
    else
      let hasText := children.any isTextOrCData
      let openTag :=
        match attrs with
        | [] =>
          pad st.indent ++ ['<'] ++ name ++ ['>'] ++
            (if (cfg.indent_text_nodes || !hasText) && st.is_pretty then ['\n']
             else [])
        | _ :: _ =>
          let isNewlines := st.is_pretty &&
            decide (cfg.max_line_length < firstAttrLineLength name attrs)
          pad st.indent ++ ['<'] ++ name ++
            (if isNewlines then '\n' :: pad (st.indent + cfg.indent) else [' ']) ++
            fmt_attrs ucd cfg name st attrs ++ ['>'] ++
            (if (cfg.indent_text_nodes || !hasText) && st.is_pretty then ['\n']
             else [])
      let childContext :=
        if hasText && !cfg.indent_text_nodes then st.withoutPretty
        else st.withIndent cfg
      let closeTag :=
        if (cfg.indent_text_nodes || !hasText) && st.is_pretty then
          pad st.indent ++ str "</" ++ name ++ ['>'] ++ ['\n']
        else
          str "</" ++ name ++ ['>'] ++ (if st.is_pretty then ['\n'] else [])
      openTag ++ printNodes ucd cfg childContext children ++ closeTag
  | .text t =>
    (if cfg.indent_text_nodes && st.is_pretty then pad st.indent else []) ++
      process_entities ucd t cfg.entity_mode true true ++
      (if cfg.indent_text_nodes && st.is_pretty then ['\n'] else [])
  | .cdataSection t =>
    (if cfg.indent_text_nodes && st.is_pretty then pad st.indent else []) ++
      str "<![CDATA[" ++ t ++ str "]]>" ++
      (if cfg.indent_text_nodes && st.is_pretty then ['\n'] else [])
  | .processingInstruction _ => []
  | .comment t =>
    (if st.is_pretty then pad st.indent else []) ++
      str "<!--" ++ process_entities ucd t cfg.entity_mode true true ++ str "-->" ++
      (if st.is_pretty then ['\n'] else [])
  | .documentType t =>
    (if st.is_pretty then pad st.indent else []) ++
      str "<!DOCTYPE " ++ t ++ ['>'] ++
      (if st.is_pretty then ['\n'] else [])

/-- The children loop of `ElementValue::print` / the `before`/`after` loops
of `Document::print`. -/
def printNodes (ucd : Ucd) (cfg : SerConfig) (st : SerState) :
    List XNode → Chars
  | [] => []
  | n :: ns => printNode ucd cfg st n ++ printNodes ucd cfg st ns

end

/-- `ElementValue::print` on an element given by its parts (the element path
of `printNode`). -/
def printElement (ucd : Ucd) (cfg : SerConfig) (st : SerState) (name : Chars)
    (attrs : List (Chars × Chars)) (children : List XNode) : Chars :=
  printNode ucd cfg st (.element name attrs children)

/-- One ` key="value"` field of the declaration. -/
def declField (key : Chars) (v : Option Chars) : Chars :=
  match v with
  | none => []
  | some v => [' '] ++ key ++ str "=\"" ++ v ++ ['"']

/-- `Declaration::print` of src/display.rs. -/
def printDecl (decl : XDecl) (st : SerState) : Chars :=
  str "<?xml" ++ declField (str "version") decl.version ++
    declField (str "encoding") decl.encoding ++
    declField (str "standalone") decl.standalone ++ str "?>" ++
    (if st.is_pretty then ['\n'] else [])

/-- `Document::print` of src/display.rs: declaration, `before` nodes, root
element, `after` nodes; the initial state is `State::new(doc, is_pretty)`
with indent 0. -/
def printDoc (ucd : Ucd) (cfg : SerConfig) (d : XDoc) : Chars :=
  let st : SerState := ⟨cfg.is_pretty, 0⟩
  (match d.decl with
   | some dl => printDecl dl st
   | none => []) ++
    printNodes ucd cfg st d.before ++
    printElement ucd cfg st d.rootName d.rootAttrs d.rootChildren ++
    printNodes ucd cfg st d.after

/-- `Document`'s `to_string()` (the non-alternate `Display` instance):
printing with `Config::default()`, i.e. non-pretty. -/
def to_string (ucd : Ucd) (d : XDoc) : Chars :=
  printDoc ucd SerConfig.default d

/-- `Document::to_string_pretty()`. -/
def to_string_pretty (ucd : Ucd) (d : XDoc) : Chars :=
  printDoc ucd SerConfig.defaultPretty d

/-- The amended escaping condition, stated from the corrected specification
wording: a character is "kept as whitespace" when it is not NBSP and is
either a plain space or, in separator-allowing (non-attribute) contexts, an
ASCII whitespace or separator character. -/
def keptAsWhitespace (ucd : Ucd) (allowSeparators : Bool) (ch : Char) : Prop :=
  ch ≠ nbsp ∧
    (ch = ' ' ∨ (allowSeparators = true ∧
      (isAsciiWhitespace ch = true ∨ ucd.isSeparator ch = true)))

instance (ucd : Ucd) (allowSeparators : Bool) (ch : Char) :
    Decidable (keptAsWhitespace ucd allowSeparators ch) := by
  unfold keptAsWhitespace
  infer_instance

/-- The amended escaping condition: a character is escaped exactly when it
is `&`, `<` or `>`; or it is `'` or `"` and the mode is `Hex` or the context
is not text; or it is a non-whitespace ASCII control character; or it is a
separator/"other"-category character that is not kept as whitespace. -/
def shouldEscapeSpec (ucd : Ucd) (mode : EntityMode)
    (allowSeparators isText : Bool) (ch : Char) : Prop :=
  (ch = '&' ∨ ch = '<' ∨ ch = '>') ∨
    ((ch = '\'' ∨ ch = '"') ∧ (mode = .hex ∨ isText = false)) ∨
    (isAsciiControl ch = true ∧ isAsciiWhitespace ch = false) ∨
    ((ucd.isSeparator ch = true ∨ ucd.isOther ch = true) ∧
      ¬ keptAsWhitespace ucd allowSeparators ch)

instance (ucd : Ucd) (mode : EntityMode) (allowSeparators isText : Bool)
    (ch : Char) : Decidable (shouldEscapeSpec ucd mode allowSeparators isText ch) := by
  unfold shouldEscapeSpec
  infer_instance

/-- The amended escaped form: in `Standard` mode `&`, `<`, `>` use named
entities, `'` and `"` use named entities in attribute (non-text) context;
every other escaped character uses the uppercase, 4-digit-minimum hex
numeric character reference. -/
def escapedFormSpec (mode : EntityMode) (isText : Bool) (ch : Char) : Chars :=
  if mode = .standard ∧ ch = '&' then str "&amp;"
  else if mode = .standard ∧ ch = '<' then str "&lt;"
  else if mode = .standard ∧ ch = '>' then str "&gt;"
  else if mode = .standard ∧ ch = '\'' ∧ isText = false then str "&apos;"
  else if mode = .standard ∧ ch = '"' ∧ isText = false then str "&quot;"
  else hexRef ch

/-- `is_name_start_char` of `is_valid_qname` (src/lib.rs). -/
def isNameStartChar (ch : Char) : Bool :=
  let n := ch.val.toNat
  ch = ':' || ('A' ≤ ch && ch ≤ 'Z') || ch = '_' || ('a' ≤ ch && ch ≤ 'z') ||
    (0xC0 ≤ n && n ≤ 0xD6) || (0xD8 ≤ n && n ≤ 0xF6) ||
    (0xF8 ≤ n && n ≤ 0x2FF) || (0x370 ≤ n && n ≤ 0x37D) ||
    (0x37F ≤ n && n ≤ 0x1FFF) || (0x200C ≤ n && n ≤ 0x200D) ||
    (0x2070 ≤ n && n ≤ 0x218F) || (0x2C00 ≤ n && n ≤ 0x2FEF) ||
    (0x3001 ≤ n && n ≤ 0xD7FF) || (0xF900 ≤ n && n ≤ 0xFDCF) ||
    (0xFDF0 ≤ n && n ≤ 0xFFFD) || (0x10000 ≤ n && n ≤ 0xEFFFF)

/-- `is_name_char` of `is_valid_qname` (src/lib.rs). -/
def isNameChar (ch : Char) : Bool :=
  let n := ch.val.toNat
  isNameStartChar ch || ch = '-' || ch = '.' || ('0' ≤ ch && ch ≤ '9') ||
    n = 0xb7 || (0x300 ≤ n && n ≤ 0x36F) || (0x203F ≤ n && n ≤ 0x2040)

/-- `is_valid_qname` of src/lib.rs: a name-start character followed by name
characters (the external `qname` crate's parse validates the same XML name
production; `parse().unwrap()` panics when it fails). -/
def isValidQName : Chars → Bool
  | [] => false
  | c :: rest => isNameStartChar c && rest.all isNameChar

/-- Modelled from the spec: the Unicode `White_Space` set used by Rust's
`str::trim` (the reader treats "whitespace-only" text by `trim`). -/
def isRustWhitespace (c : Char) : Bool :=
  [9, 10, 11, 12, 13, 32, 0x85, 0xA0, 0x1680, 0x2000, 0x2001, 0x2002, 0x2003,
    0x2004, 0x2005, 0x2006, 0x2007, 0x2008, 0x2009, 0x200A, 0x2028, 0x2029,
    0x202F, 0x205F, 0x3000].contains c.val.toNat

/-- Rust `str::trim`: strip `White_Space` characters from both ends. -/
def rustTrim (s : Chars) : Chars :=
  ((s.dropWhile isRustWhitespace).reverse.dropWhile isRustWhitespace).reverse

/-- Value of a hex digit character. -/
def hexDigitVal (c : Char) : Option Nat :=
  if '0' ≤ c ∧ c ≤ '9' then some (c.val.toNat - 48)
  else if 'A' ≤ c ∧ c ≤ 'F' then some (c.val.toNat - 55)
  else if 'a' ≤ c ∧ c ≤ 'f' then some (c.val.toNat - 87)
  else none

/-- Accumulate hex digits into a number; `none` on a non-digit. -/
def hexValAux (acc : Nat) : Chars → Option Nat
  | [] => some acc
  | c :: rest =>
    match hexDigitVal c with
    | some d => hexValAux (16 * acc + d) rest
    | none => none

/-- Parse a non-empty hex digit string. -/
def hexVal : Chars → Option Nat
  | [] => none
  | cs => hexValAux 0 cs

/-- Accumulate decimal digits into a number; `none` on a non-digit. -/
def decValAux (acc : Nat) : Chars → Option Nat
  | [] => some acc
  | c :: rest =>
    if '0' ≤ c ∧ c ≤ '9' then decValAux (10 * acc + (c.val.toNat - 48)) rest
    else none

/-- Parse a non-empty decimal digit string. -/
def decVal : Chars → Option Nat
  | [] => none
  | cs => decValAux 0 cs

/-- A scalar value as a `Char`, or `none` when out of range (surrogates or
beyond U+10FFFF), where the reader reports an invalid character reference. -/
def charOfNat (n : Nat) : Option Char :=
  if n.isValidChar then some (Char.ofNat n) else none

/-- Modelled from the spec: entity resolution of the external token reader
(`unescape` in quick-xml): the five predefined XML entities plus hex
(`&#xN;`) and decimal (`&#N;`) character references; anything else is a
reader error. -/
def entityValue (name : Chars) : Option Char :=
  if name = str "amp" then some '&'
  else if name = str "lt" then some '<'
  else if name = str "gt" then some '>'
  else if name = str "apos" then some '\''
  else if name = str "quot" then some '"'
  else
    match name with
    | '#' :: 'x' :: ds => (hexVal ds).bind charOfNat
    | '#' :: 'X' :: ds => (hexVal ds).bind charOfNat
    | '#' :: ds => (decVal ds).bind charOfNat
    | _ => none

/-- Modelled from the spec: the reader's `unescape`.  The second argument is
`some buf` while scanning an entity name (characters since `&`, reversed);
a dangling `&` without `;`, or an unknown entity, is an error (`none`) —
this is the "unterminated entity reference" failure of the specification. -/
def unescapeAux : Chars → Option Chars → Option Chars
  | [], none => some []
  | [], some _ => none
  | c :: rest, none =>
    if c = '&' then unescapeAux rest (some [])
    else (unescapeAux rest none).map (c :: ·)
  | c :: rest, some buf =>
    if c = ';' then
      match entityValue buf.reverse with
      | some ch => (unescapeAux rest none).map (ch :: ·)
      | none => none
    else unescapeAux rest (some (c :: buf))

/-- Modelled from the spec: decode entity references in reader text. -/
def unescapeChars (s : Chars) : Option Chars :=
  unescapeAux s none

/-- An event of the external token reader (quick-xml), as consumed by
`Document::from_reader`.  Text-bearing events carry the raw (still escaped)
text; end of input (`Event::Eof`) is the end of the event list.  The
declaration event carries the version/encoding/standalone lookups the
source performs on it. -/
inductive XmlEvent where
  | startTag (name : Chars) (attrs : List (Chars × Chars))
  | emptyTag (name : Chars) (attrs : List (Chars × Chars))
  | endTag (name : Chars)
  | text (raw : Chars)
  | cdata (raw : Chars)
  | comment (raw : Chars)
  | doctype (raw : Chars)
  | decl (version encoding standalone : Option Chars)
  | procInst (raw : Chars)

/-- `ReadError` of src/document.rs.  The payload of `Parse` (the wrapped
quick-xml error) is opaque here. -/
inductive ReadError where
  | parse
  | supplementaryElement (name : Chars)

/-- Outcome of `Document::from_reader`: a document, a returned `ReadError`,
or a panic (`panic!`/`unwrap` on untrusted input). -/
inductive LoadResult where
  | ok (d : XDoc)
  | err (e : ReadError)
  | panicked

/-- An open element on the reader's `element_stack`: its name, attribute
table, and the children accumulated so far. -/
structure Frame where
  name : Chars
  attrs : List (Chars × Chars)
  children : List XNode

/-- The state of the second reader loop: the document parts built so far
plus the open-element stack (top first; the bottom frame is the root when
the root was opened with a start tag). -/
structure P2State where
  decl : Option XDecl
  before : List XNode
  rootName : Chars
  rootAttrs : List (Chars × Chars)
  stack : List Frame
  rootChildren : List XNode
  after : List XNode

/-- Attach an open frame (and everything above it) into its parents; used at
end of input, where the source leaves already-attached partial elements in
the document.  In this model elements are attached on close, so the
remaining frames are folded bottom-out. -/
def collapseInto : Frame → List Frame → List XNode
  | f, [] => f.children
  | f, g :: rest =>
    collapseInto ⟨g.name, g.attrs, g.children ++ [.element f.name f.attrs f.children]⟩ rest

/-- The root's final children list: collapse any still-open frames. -/
def finalChildren (stack : List Frame) (rootChildren : List XNode) : List XNode :=
  match stack with
  | [] => rootChildren
  | f :: rest => collapseInto f rest

/-- The document described by a second-loop state. -/
def p2doc (st : P2State) : XDoc :=
  ⟨st.decl, st.before, st.rootName, st.rootAttrs,
    finalChildren st.stack st.rootChildren, st.after⟩

/-- Outcome of building an attribute table in the second loop. -/
inductive BuildAttrsResult where
  | ok (attrs : List (Chars × Chars))
  | parseFail
  | panicked

/-- The attribute loop of the second-phase `Start`/`Empty` handlers: per
attribute, `unescape_value()?` (a reader error propagates as `Err`), then
`parse().unwrap()` on the key (an invalid QName panics), inserting into the
`IndexMap`. -/
def buildAttrs (acc : List (Chars × Chars)) :
    List (Chars × Chars) → BuildAttrsResult
  | [] => .ok acc
  | (k, rawv) :: rest =>
    match unescapeChars rawv with
    | none => .parseFail
    | some v =>
      if isValidQName k then buildAttrs (attrsInsert acc k v) rest
      else .panicked

/-- The attribute loop of the first (pre-root) phase: the source uses
`unescape_value().unwrap()` and `set_attribute` (whose key parse on an
invalid QName panics), so both failures panic (`none`). -/
def buildRootAttrs (acc : List (Chars × Chars)) :
    List (Chars × Chars) → Option (List (Chars × Chars))
  | [] => some acc
  | (k, rawv) :: rest =>
    match unescapeChars rawv with
    | none => none
    | some v =>
      if isValidQName k then buildRootAttrs (attrsInsert acc k v) rest
      else none

/-- Result of one second-loop step: keep looping with a new state, or halt
with a final result. -/
inductive P2Out where
  | next (st : P2State)
  | halt (r : LoadResult)

/-- One event of the second loop of `Document::from_reader`
(src/document.rs lines 417-535).  `Start`/`Empty` parse the name
(panicking on an invalid QName), then fail with `SupplementaryElement` when
the stack is empty, then build the attribute table; `End` pops (a no-op on
an empty stack — `Vec::pop` returns `None`); `Text` is unescaped (`?`) and
dropped when whitespace-only, else appended to the innermost open element,
or to `after` when no element is open; `CData` is appended raw; `Comment`
is unescaped and appended; `PI`, `Decl` and `DocType` are ignored. -/
def p2step (st : P2State) : XmlEvent → P2Out
  | .startTag name rawAttrs =>
    if isValidQName name then
      match st.stack with
      | [] => .halt (.err (.supplementaryElement name))
      | _ :: _ =>
        match buildAttrs [] rawAttrs with
        | .parseFail => .halt (.err .parse)
        | .panicked => .halt .panicked
        | .ok attrs => .next { st with stack := ⟨name, attrs, []⟩ :: st.stack }
    else .halt .panicked
  | .emptyTag name rawAttrs =>
    if isValidQName name then
      match st.stack with
      | [] => .halt (.err (.supplementaryElement name))
      | f :: fs =>
        match buildAttrs [] rawAttrs with
        | .parseFail => .halt (.err .parse)
        | .panicked => .halt .panicked
        | .ok attrs =>
          .next { st with stack :=
            ⟨f.name, f.attrs, f.children ++ [.element name attrs []]⟩ :: fs }
    else .halt .panicked
  | .endTag _ =>
    match st.stack with
    | [] => .next st
    | [f] => .next { st with stack := [], rootChildren := f.children }
    | f :: g :: fs =>
      .next { st with stack :=
        ⟨g.name, g.attrs, g.children ++ [.element f.name f.attrs f.children]⟩ :: fs }
  | .text raw =>
    match unescapeChars raw with
    | none => .halt (.err .parse)
    | some t =>
      if rustTrim t = [] then .next st
      else
        match st.stack with
        | [] => .next { st with after := st.after ++ [.text t] }
        | f :: fs =>
          .next { st with stack := ⟨f.name, f.attrs, f.children ++ [.text t]⟩ :: fs }
  | .cdata raw =>
    match st.stack with
    | [] => .next { st with after := st.after ++ [.cdataSection raw] }
    | f :: fs =>
      .next { st with stack := ⟨f.name, f.attrs, f.children ++ [.cdataSection raw]⟩ :: fs }
  | .comment raw =>
    match unescapeChars raw with
    | none => .halt (.err .parse)
    | some t =>
      match st.stack with
      | [] => .next { st with after := st.after ++ [.comment t] }
      | f :: fs =>
        .next { st with stack := ⟨f.name, f.attrs, f.children ++ [.comment t]⟩ :: fs }
  | .procInst _ => .next st
  | .decl _ _ _ => .next st
  | .doctype _ => .next st

/-- The second loop of `Document::from_reader`: fold `p2step` over the
events; a reader error is returned as a `Parse` failure; end of input
(`Event::Eof`) breaks the loop and yields the document. -/
def phase2 (st : P2State) : List (Except Unit XmlEvent) → LoadResult
  | [] => .ok (p2doc st)
  | .error _ :: _ => .err .parse
  | .ok ev :: rest =>
    match p2step st ev with
    | .next st' => phase2 st' rest
    | .halt r => r

/-- The first loop of `Document::from_reader` (src/document.rs lines
321-415), which runs until the root start/empty tag: doctype text is
unescaped (`unwrap`: an error panics) and trimmed; a declaration is
recorded (a later one replaces it); empty text events are skipped and
whitespace-only text is dropped, non-blank text is pushed to `before` (an
unescape error panics through the `unwrap`); CDATA is pushed raw; comments
are unescaped (`unwrap`) and pushed; PIs are skipped; on the root tag the
root name is parsed (panicking when invalid), its attributes are set, and
the loop breaks into the second phase (pushing the root on the stack only
for a start tag).  Any other event — including end of input — hits the
`panic!("Uhh... ")` catch-all. -/
def phase1 (decl : Option XDecl) (before : List XNode) :
    List (Except Unit XmlEvent) → LoadResult
  | [] => .panicked
  | .error _ :: _ => .err .parse
  | .ok ev :: rest =>
    match ev with
    | .doctype raw =>
      match unescapeChars raw with
      | none => .panicked
      | some s => phase1 decl (before ++ [.documentType (rustTrim s)]) rest
    | .decl v e s => phase1 (some ⟨v, e, s⟩) before rest
    | .text raw =>
      if raw.isEmpty then phase1 decl before rest
      else
        match unescapeChars raw with
        | none => .panicked
        | some t =>
          if rustTrim t = [] then phase1 decl before rest
          else phase1 decl (before ++ [.text t]) rest
    | .comment raw =>
      match unescapeChars raw with
      | none => .panicked
      | some t => phase1 decl (before ++ [.comment t]) rest
    | .cdata raw => phase1 decl (before ++ [.cdataSection raw]) rest
    | .procInst _ => phase1 decl before rest
    | .startTag name rawAttrs =>
      if isValidQName name then
        match buildRootAttrs [] rawAttrs with
        | none => .panicked
        | some attrs =>
          phase2 ⟨decl, before, name, attrs, [⟨name, [], []⟩], [], []⟩ rest
      else .panicked
    | .emptyTag name rawAttrs =>
      if isValidQName name then
        match buildRootAttrs [] rawAttrs with
        | none => .panicked
        | some attrs => phase2 ⟨decl, before, name, attrs, [], [], []⟩ rest
      else .panicked
    | .endTag _ => .panicked

/-- `Document::from_reader` over the reader's event sequence. -/
def from_reader (events : List (Except Unit XmlEvent)) : LoadResult :=
  phase1 none [] events

/-- `m` occurs as a contiguous substring of `s`. -/
def hasInfix (m s : Chars) : Prop := ∃ i, m <+: s.drop i

/-- Split `s` at the first occurrence of the marker `m`: the part before the
marker and the part after it. -/
def splitSeq (m : Chars) : Chars → Option (Chars × Chars)
  | [] => none
  | c :: rest =>
    if m.isPrefixOf (c :: rest) then some ([], (c :: rest).drop m.length)
    else (splitSeq m rest).map fun p => (c :: p.1, p.2)

/-- Characters ending a tag name. -/
def tagStop (c : Char) : Bool :=
  c = ' ' || c = '/' || c = '>' || c = '\t' || c = '\n' || c = '\r'

/-- Whitespace between attributes inside a tag. -/
def isTagSpace (c : Char) : Bool :=
  c = ' ' || c = '\t' || c = '\n' || c = '\r'

/-- Characters ending an attribute key. -/
def attrKeyStop (c : Char) : Bool :=
  c = '=' || c = ' ' || c = '/' || c = '>' || c = '"' ||
    c = '\t' || c = '\n' || c = '\r'

/-- Modelled from the spec: the attribute scanner of the external token
reader, for the inside of a start tag after the name: repeatedly skip
whitespace and read `key="value"` pairs until `>` (start tag) or `/>`
(empty tag); `none` is a malformed tag (a reader error). -/
def lexAttrs : Nat → Chars → Option (List (Chars × Chars) × Bool × Chars)
  | 0, _ => none
  | fuel + 1, cs0 =>
    let cs := cs0.dropWhile isTagSpace
    match cs with
    | [] => none
    | c :: cs1 =>
      if c = '>' then some ([], false, cs1)
      else if c = '/' then
        match cs1 with
        | c2 :: rest => if c2 = '>' then some ([], true, rest) else none
        | [] => none
      else
        let k := cs.takeWhile fun x => !attrKeyStop x
        if k.isEmpty then none
        else
          match cs.drop k.length with
          | c1 :: c2 :: cs2 =>
            if c1 = '=' ∧ c2 = '"' then
              let v := cs2.takeWhile (· ≠ '"')
              match cs2.drop v.length with
              | c3 :: cs3 =>
                if c3 = '"' then
                  (lexAttrs fuel cs3).map fun p => ((k, v) :: p.1, p.2.1, p.2.2)
                else none
              | [] => none
            else none
          | _ => none

/-- Modelled from the spec: the `key="value"` scanner for the inside of an
XML declaration (`<?xml … ?>`); `none` is a malformed declaration. -/
def declAttrs : Nat → Chars → Option (List (Chars × Chars))
  | 0, _ => none
  | fuel + 1, cs0 =>
    let cs := cs0.dropWhile isTagSpace
    match cs with
    | [] => some []
    | _ :: _ =>
      let k := cs.takeWhile fun x => !attrKeyStop x
      if k.isEmpty then none
      else
        match cs.drop k.length with
        | c1 :: c2 :: cs2 =>
          if c1 = '=' ∧ c2 = '"' then
            let v := cs2.takeWhile (· ≠ '"')
            match cs2.drop v.length with
            | c3 :: cs3 =>
              if c3 = '"' then (declAttrs fuel cs3).map fun as => (k, v) :: as
              else none
            | [] => none
          else none
        | _ => none

/-- Modelled from the spec: the declaration event carrying the reader's
`version()`/`encoding()`/`standalone()` lookups (each `None` when the
pseudo-attribute is absent or the declaration is malformed). -/
def declEventOf (s : Chars) : XmlEvent :=
  match declAttrs (s.length + 1) s with
  | none => .decl none none none
  | some as =>
    .decl (lookupAttr as (str "version")) (lookupAttr as (str "encoding"))
      (lookupAttr as (str "standalone"))

/-- Modelled from the spec: the markup dispatcher of the external token
reader, for input following a `<`: declaration/processing instruction,
comment, CDATA section, doctype, end tag, or start/empty tag. -/
def lexMarkup (rest : Chars) : Option (Except Unit XmlEvent × Chars) :=
  if (str "?").isPrefixOf rest then
    match splitSeq (str "?>") (rest.drop 1) with
    | none => some (.error (), [])
    | some (content, rem) =>
      if content = str "xml" ∨ (str "xml ").isPrefixOf content then
        some (.ok (declEventOf (content.drop 3)), rem)
      else some (.ok (.procInst content), rem)
  else if (str "!--").isPrefixOf rest then
    match splitSeq (str "-->") (rest.drop 3) with
    | none => some (.error (), [])
    | some (content, rem) => some (.ok (.comment content), rem)
  else if (str "![CDATA[").isPrefixOf rest then
    match splitSeq (str "]]>") (rest.drop 8) with
    | none => some (.error (), [])
    | some (content, rem) => some (.ok (.cdata content), rem)
  else if (str "!DOCTYPE").isPrefixOf rest then
    match splitSeq (str ">") (rest.drop 8) with
    | none => some (.error (), [])
    | some (content, rem) => some (.ok (.doctype content), rem)
  else if (str "/").isPrefixOf rest then
    match splitSeq (str ">") (rest.drop 1) with
    | none => some (.error (), [])
    | some (name, rem) => some (.ok (.endTag name), rem)
  else
    let name := rest.takeWhile fun c => !tagStop c
    if name.isEmpty then some (.error (), [])
    else
      match lexAttrs (rest.length + 1) (rest.drop name.length) with
      | none => some (.error (), [])
      | some (attrs, isEmpt, rem) =>
        some
          (.ok (if isEmpt then .emptyTag name attrs else .startTag name attrs),
            rem)

/-- Modelled from the spec: one step of the external token reader — scan the
next event and return it with the remaining input; `none` is end of input
(`Event::Eof`); an `error` event is a reader error (malformed markup). -/
def nextEvent : Chars → Option (Except Unit XmlEvent × Chars)
  | [] => none
  | c :: rest =>
    if c = '<' then lexMarkup rest
    else
      let t := (c :: rest).takeWhile (· ≠ '<')
      some (.ok (.text t), (c :: rest).drop t.length)

/-- Modelled from the spec: the reader's event sequence, unfolding
`nextEvent` with fuel (each step consumes at least one character, so
`length + 1` fuel suffices); a reader error ends the stream with an `error`
item, end of input ends it. -/
def lexFuel : Nat → Chars → List (Except Unit XmlEvent)
  | 0, _ => [.error ()]
  | fuel + 1, cs =>
    match nextEvent cs with
    | none => []
    | some (.error _, _) => [.error ()]
    | some (.ok ev, rem) => .ok ev :: lexFuel fuel rem

/-- Modelled from the spec: tokenize an input text into reader events. -/
def lex (cs : Chars) : List (Except Unit XmlEvent) :=
  lexFuel (cs.length + 1) cs

/-- `Document::from_str`: parse an in-memory string — tokenize (the external
reader) and run `Document::from_reader`'s loops over the events. -/
def from_str (s : Chars) : LoadResult :=
  from_reader (lex s)

/-- Text escaping as applied by the serializer to text nodes and comments. -/
def escText (ucd : Ucd) (s : Chars) : Chars :=
  process_entities ucd s .standard true true

/-- Attribute-value escaping as applied by the serializer. -/
def escAttrVal (ucd : Ucd) (v : Chars) : Chars :=
  process_entities ucd v .standard false false

/-- An attribute table with its values escaped (as they appear in the
rendered tag, and hence in the reader's raw attribute events). -/
def escAttrs (ucd : Ucd) (a : List (Chars × Chars)) : List (Chars × Chars) :=
  a.map fun kv => (kv.1, escAttrVal ucd kv.2)

/-- The non-pretty rendering of an attribute table: each attribute preceded
by a single space (the tag's own separator plus `fmt_attrs`' space
separators). -/
def renderAttrsSp (ucd : Ucd) : List (Chars × Chars) → Chars
  | [] => []
  | (k, v) :: rest =>
    ' ' :: (attrChunk ucd SerConfig.default k v ++ renderAttrsSp ucd rest)

mutual

/-- The canonical reader events produced by tokenizing the non-pretty
serialization of a node. -/
def eventsOfNode (ucd : Ucd) : XNode → List XmlEvent
  | .element n a c =>
    if c.isEmpty then [.emptyTag n (escAttrs ucd a)]
    else .startTag n (escAttrs ucd a) :: (eventsOfNodes ucd c ++ [.endTag n])
  | .text s => [.text (escText ucd s)]
  | .cdataSection s => [.cdata s]
  | .comment s => [.comment (escText ucd s)]
  | .documentType s => [.doctype (' ' :: s)]
  | .processingInstruction _ => []

/-- `eventsOfNode` over a list of siblings. -/
def eventsOfNodes (ucd : Ucd) : List XNode → List XmlEvent
  | [] => []
  | n :: ns => eventsOfNode ucd n ++ eventsOfNodes ucd ns

end

/-- A string that is empty or starts with `<` — what must follow a text run
for the tokenizer to end the text event exactly there. -/
def startsOk (cs : Chars) : Prop := cs = [] ∨ ∃ r, cs = '<' :: r

/-- Attribute tables that survive the loader's rebuild: every key a valid
QName and all keys distinct (an `IndexMap` re-inserts them in order). -/
def AttrsOk (a : List (Chars × Chars)) : Prop :=
  (∀ kv ∈ a, isValidQName kv.1 = true) ∧ (a.map Prod.fst).Nodup

mutual

/-- Nodes (inside an element) whose serialization tokenizes and loads back
to the same node: valid element names and attributes; text nodes that are
not whitespace-only (the loader drops those); CDATA without an embedded
`]]>`; comments (their serialization escapes everything dangerous); no
document types (the loader ignores them inside elements) and no processing
instructions (the serializer has no rendering and the loader drops them). -/
def NodeOk : XNode → Prop
  | .element n a c => isValidQName n = true ∧ AttrsOk a ∧ NodesOk c
  | .text s => rustTrim s ≠ []
  | .cdataSection s => ¬ hasInfix (str "]]>") s
  | .comment _ => True
  | .documentType _ => False
  | .processingInstruction _ => False

/-- `NodeOk` for all siblings, with no two adjacent text nodes (adjacent
text would merge into one text event). -/
def NodesOk : List XNode → Prop
  | [] => True
  | [n] => NodeOk n
  | n :: m :: ns =>
    NodeOk n ∧ ¬(isTextNode n = true ∧ isTextNode m = true) ∧ NodesOk (m :: ns)

end

/-- Nodes allowed in `before` for exact round-tripping: additionally a
doctype must be free of `&` and `>` and already trimmed (the loader trims
it). -/
def BeforeNodeOk : XNode → Prop
  | .text s => rustTrim s ≠ []
  | .cdataSection s => ¬ hasInfix (str "]]>") s
  | .comment _ => True
  | .documentType s => '&' ∉ s ∧ '>' ∉ s ∧ rustTrim s = s
  | _ => False

/-- Nodes allowed in `after` for exact round-tripping (no doctype: the
second loop ignores doctype events, so one there would be dropped). -/
def AfterNodeOk : XNode → Prop
  | .text s => rustTrim s ≠ []
  | .cdataSection s => ¬ hasInfix (str "]]>") s
  | .comment _ => True
  | _ => False

/-- A node predicate over all siblings plus the no-adjacent-text condition. -/
def NodesChainOk (P : XNode → Prop) : List XNode → Prop
  | [] => True
  | [n] => P n
  | n :: m :: ns =>
    P n ∧ ¬(isTextNode n = true ∧ isTextNode m = true) ∧
      NodesChainOk P (m :: ns)

/-- Declaration field values that render and re-tokenize exactly: no `"`
(the value scanner stops there) and no `?` (the `?>` scanner). -/
def DeclValOk (v : Chars) : Prop := '"' ∉ v ∧ '?' ∉ v

/-- A declaration that round-trips. -/
def DeclOk : Option XDecl → Prop
  | none => True
  | some dl =>
    (∀ v, dl.version = some v → DeclValOk v) ∧
      (∀ v, dl.encoding = some v → DeclValOk v) ∧
      (∀ v, dl.standalone = some v → DeclValOk v)

/-- Documents whose non-pretty serialization tokenizes and loads back to
exactly the same document — the class on which the round-trip guarantee
holds. -/
def Loadable (d : XDoc) : Prop :=
  DeclOk d.decl ∧ NodesChainOk BeforeNodeOk d.before ∧
    isValidQName d.rootName = true ∧ AttrsOk d.rootAttrs ∧
    NodesOk d.rootChildren ∧ NodesChainOk AfterNodeOk d.after

/-- The tokenizer consumes `cs` down to `rest`, emitting exactly `evs`. -/
def NextChain : Chars → List XmlEvent → Chars → Prop
  | cs, [], rest => cs = rest
  | cs, ev :: evs, rest =>
    ∃ cs', nextEvent cs = some (.ok ev, cs') ∧ NextChain cs' evs rest

/-- The declaration pseudo-attributes present in `dl`, in print order. -/
def declFieldsList (dl : XDecl) : List (Chars × Chars) :=
  (match dl.version with | none => [] | some v => [(str "version", v)]) ++
    (match dl.encoding with | none => [] | some v => [(str "encoding", v)]) ++
    (match dl.standalone with | none => [] | some v => [(str "standalone", v)])

/-- The rendering of a list of declaration pseudo-attributes, each as
` key="value"` (the concatenation of the `declField`s). -/
def renderDeclFields : List (Chars × Chars) → Chars
  | [] => []
  | (k, v) :: rest =>
    ' ' :: (k ++ ('=' :: '"' :: (v ++ ('"' :: renderDeclFields rest))))

/-- The canonical reader events of a whole serialized document. -/
def eventsOfDoc (ucd : Ucd) (d : XDoc) : List XmlEvent :=
  (match d.decl with
   | none => []
   | some dl => [.decl dl.version dl.encoding dl.standalone]) ++
    (eventsOfNodes ucd d.before ++
      (eventsOfNode ucd (.element d.rootName d.rootAttrs d.rootChildren) ++
        eventsOfNodes ucd d.after))

/-! ## Theorems -/

theorem sortAttrsList_length (ns : List XNode) :
    (sortAttrsList ns).length = ns.length := by
  induction ns with
  | nil => rfl
  | cons n ns ih => simp [sortAttrsList, ih]

theorem doctype_mem_sortAttrsList {s : Chars} {ns : List XNode}
    (h : XNode.documentType s ∈ ns) :
    XNode.documentType s ∈ sortAttrsList ns := by
  induction ns with
  | nil => cases h
  | cons n ns ih =>
    rcases List.mem_cons.mp h with h | h
    · subst h
      exact List.mem_cons_self _ _
    · exact List.mem_cons_of_mem _ (ih h)

theorem enumerate_mem {x : XNode} {ns : List XNode} (k : Nat) (h : x ∈ ns) :
    ∃ i, (x, i) ∈ enumerate k ns := by
  induction ns generalizing k with
  | nil => cases h
  | cons n ns ih =>
    rcases List.mem_cons.mp h with h | h
    · exact ⟨k, by simp [enumerate, h]⟩
    · rcases ih (k + 1) h with ⟨i, hi⟩
      exact ⟨i, List.mem_cons_of_mem _ hi⟩

theorem enumerate_mem_fst {x : XNode} {i : Nat} {ns : List XNode} {k : Nat}
    (h : (x, i) ∈ enumerate k ns) : x ∈ ns := by
  induction ns generalizing k with
  | nil => cases h
  | cons n ns ih =>
    rcases List.mem_cons.mp h with h | h
    · cases h
      exact List.mem_cons_self _ _
    · exact List.mem_cons_of_mem _ (ih h)

theorem partitionNodes_none_of_doctype {s : Chars} {i : Nat} :
    ∀ {l : List (XNode × Nat)} (pre : List (XNode × Nat))
      (elems : List ElementAndContext) (hT : Bool) (post : List (XNode × Nat)),
      (XNode.documentType s, i) ∈ l →
      partitionNodes pre elems hT post l = none := by
  intro l
  induction l with
  | nil => intro _ _ _ _ h; cases h
  | cons p rest ih =>
    intro pre elems hT post h
    obtain ⟨n, j⟩ := p
    rcases List.mem_cons.mp h with heq | hmem
    · cases heq
      rfl
    · clear h
      cases n <;> simp only [partitionNodes] <;>
        first | rfl | exact ih _ _ _ _ hmem

/-- Claim C10: a `DocumentType` node in `before`, together with at least one
other node there, makes `sort(d, true)` hit the `panic!` in the sibling-sort
partition (modelled as `none`) instead of returning a sorted document. -/
theorem C10_sort_panics_on_doctype_in_before (d : XDoc)
    (hd : ∃ s, XNode.documentType s ∈ d.before)
    (hlen : 2 ≤ d.before.length) :
    d.sort true = none := by
  obtain ⟨s, hs⟩ := hd
  have hs' : XNode.documentType s ∈ sortAttrsList d.before :=
    doctype_mem_sortAttrsList hs
  obtain ⟨i, hi⟩ := enumerate_mem (x := XNode.documentType s) 0 hs'
  have hnone : sort_nodes (sortAttrsList d.before) = none := by
    have hlen' : ¬ (sortAttrsList d.before).length < 2 := by
      rw [sortAttrsList_length]; omega
    simp only [sort_nodes, hlen', if_false]
    rw [partitionNodes_none_of_doctype _ _ _ _ hi]
  simp only [XDoc.sort, if_true]
  rw [hnone]

/-- Witness for C10 at a concrete document: a doctype plus a comment in
`before`. -/
theorem C10_sort_panics_on_doctype_in_before_witness :
    ({ decl := none, before := [.documentType (str "html"), .comment (str "c")],
       rootName := str "root", rootAttrs := [], rootChildren := [],
       after := [] } : XDoc).sort true = none :=
  C10_sort_panics_on_doctype_in_before _ ⟨str "html", List.mem_cons_self _ _⟩
    (by simp)

/-- Claim C2 (failing at this input): the sibling sort does not re-emit the
original multiset.  A comment directly preceding the first of two elements
is attached to the contexts of *both* elements (the `pre` accumulator is
never cleared), so it is emitted twice; a comment after the last element is
collected into `pre` but never re-emitted, so it is dropped. -/
theorem C2_pre_nodes_duplicated_and_dropped :
    sort_nodes [.comment (str "a"), .element (str "x") [] [],
        .element (str "y") [] []] =
      some [.comment (str "a"), .element (str "x") [] [],
        .comment (str "a"), .element (str "y") [] []] ∧
    sort_nodes [.element (str "x") [] [], .comment (str "a")] =
      some [.element (str "x") [] []] :=
  ⟨rfl, rfl⟩

theorem partitionNodes_no_doctype :
    ∀ (l : List (XNode × Nat)) (pre : List (XNode × Nat))
      (elems : List ElementAndContext) (hT : Bool) (post : List (XNode × Nat)),
      (∀ s i, (XNode.documentType s, i) ∉ l) →
      ∃ es p,
        partitionNodes pre elems hT post l =
          some (es, hT || l.any (fun q => isTextNode q.1), p) ∧
        es.isEmpty = (elems.isEmpty && !(l.any (fun q => isElementNode q.1))) := by
  intro l
  induction l with
  | nil =>
    intro pre elems hT post _
    exact ⟨elems, post, by simp [partitionNodes]⟩
  | cons q rest ih =>
    intro pre elems hT post hnd
    obtain ⟨n, j⟩ := q
    have hnd' : ∀ s i, (XNode.documentType s, i) ∉ rest := by
      intro s i hmem
      exact hnd s i (List.mem_cons_of_mem _ hmem)
    cases n with
    | element name attrs children =>
      obtain ⟨es, p, hpart, hempty⟩ :=
        ih pre (elems ++ [⟨pre, .element name attrs children, name, attrs⟩])
          hT post hnd'
      refine ⟨es, p, ?_, ?_⟩
      · simpa [partitionNodes, isTextNode] using hpart
      · simp [hempty, isElementNode]
    | text s =>
      obtain ⟨es, p, hpart, hempty⟩ := ih pre elems true (post ++ [(.text s, j)]) hnd'
      refine ⟨es, p, ?_, ?_⟩
      · simpa [partitionNodes, isTextNode] using hpart
      · simp [hempty, isElementNode]
    | cdataSection s =>
      obtain ⟨es, p, hpart, hempty⟩ :=
        ih (pre ++ [(.cdataSection s, j)]) elems hT post hnd'
      refine ⟨es, p, ?_, ?_⟩
      · simpa [partitionNodes, isTextNode] using hpart
      · simp [hempty, isElementNode]
    | processingInstruction s =>
      obtain ⟨es, p, hpart, hempty⟩ :=
        ih pre elems hT (post ++ [(.processingInstruction s, j)]) hnd'
      refine ⟨es, p, ?_, ?_⟩
      · simpa [partitionNodes, isTextNode] using hpart
      · simp [hempty, isElementNode]
    | comment s =>
      obtain ⟨es, p, hpart, hempty⟩ :=
        ih (pre ++ [(.comment s, j)]) elems hT post hnd'
      refine ⟨es, p, ?_, ?_⟩
      · simpa [partitionNodes, isTextNode] using hpart
      · simp [hempty, isElementNode]
    | documentType s =>
      exact absurd (List.mem_cons_self (XNode.documentType s, j) rest) (hnd s j)

/-- Claim C4 (amended with "and no DocumentType node"): a sibling sequence
containing at least one Text node, at least one Element node and no
DocumentType node is returned unchanged by the sibling sort. -/
theorem C4_mixed_text_and_element_unsorted (ns : List XNode)
    (ht : ∃ s, XNode.text s ∈ ns)
    (he : ∃ n a c, XNode.element n a c ∈ ns)
    (hd : ∀ s, XNode.documentType s ∉ ns) :
    sort_nodes ns = some ns := by
  by_cases hlen : ns.length < 2
  · simp [sort_nodes, hlen]
  · have hnd : ∀ s i, (XNode.documentType s, i) ∉ enumerate 0 ns := by
      intro s i hmem
      exact hd s (enumerate_mem_fst hmem)
    obtain ⟨es, p, hpart, hempty⟩ :=
      partitionNodes_no_doctype (enumerate 0 ns) [] [] false [] hnd
    have hanyT : (enumerate 0 ns).any (fun q => isTextNode q.1) = true := by
      obtain ⟨s, hs⟩ := ht
      obtain ⟨i, hi⟩ := enumerate_mem 0 hs
      exact List.any_eq_true.mpr ⟨_, hi, rfl⟩
    have hanyE : (enumerate 0 ns).any (fun q => isElementNode q.1) = true := by
      obtain ⟨n, a, c, hs⟩ := he
      obtain ⟨i, hi⟩ := enumerate_mem 0 hs
      exact List.any_eq_true.mpr ⟨_, hi, rfl⟩
    have hesne : es.isEmpty = false := by
      rw [hempty, hanyE]
      simp
    simp only [sort_nodes, hlen, if_false]
    rw [hpart]
    simp [hanyT, hesne]

/-- Claim C4, counterexample to the original wording: a sequence containing
a Text node and an Element node is *not* always left unchanged — a
DocumentType sibling makes the partition loop panic before the mixed-content
check is reached. -/
theorem C4_counterexample_doctype_panics :
    sort_nodes [.text (str "t"), .element (str "x") [] [],
        .documentType (str "d")] = none := rfl

/-- Witness for C4 at a concrete mixed sequence. -/
theorem C4_mixed_text_and_element_unsorted_witness :
    sort_nodes [.text (str "t"), .element (str "x") [] []] =
      some [.text (str "t"), .element (str "x") [] []] :=
  C4_mixed_text_and_element_unsorted _
    ⟨str "t", List.mem_cons_self _ _⟩
    ⟨str "x", [], [], List.mem_cons_of_mem _ (List.mem_cons_self _ _)⟩
    (by intro s; simp)

theorem ite_ne_eq_then (o p : Ordering) :
    (if o ≠ .eq then o else p) = o.then p := by
  cases o <;> simp [Ordering.then]

/-- Claim C5: the element comparison is exactly the specification's six-step
composite ordering (first mismatch decides, the `id` step applies only when
both elements carry an `id` attribute), and the sort used on the element
group is stable: elements that compare equal keep their original relative
order. -/
theorem C5_ord_elem_composite_and_stable :
    (∀ a b, ord_elem a b = ord_elem_spec a b) ∧
    ∀ (l : List ElementAndContext) (a b : ElementAndContext),
      ord_elem a b = .eq → [a, b].Sublist l →
      [a, b].Sublist (l.insertionSort ecLe) := by
  constructor
  · intro a b
    simp only [ord_elem, ord_elem_spec, ite_ne_eq_then]
  · intro l a b heq hsub
    exact List.pair_sublist_insertionSort (by simp [ecLe, heq]) hsub

/-- Witness for C5 at concrete inputs: two identical elements (tied under
`ord_elem`) keep their order through the sort. -/
theorem C5_ord_elem_composite_and_stable_witness :
    ord_elem ⟨[], .element (str "a") [] [], str "a", [(str "k", str "1")]⟩
        ⟨[], .element (str "a") [] [], str "a", [(str "k", str "2")]⟩ =
      ord_elem_spec ⟨[], .element (str "a") [] [], str "a", [(str "k", str "1")]⟩
        ⟨[], .element (str "a") [] [], str "a", [(str "k", str "2")]⟩ ∧
    [(⟨[], .element (str "b") [] [], str "b", []⟩ : ElementAndContext),
        ⟨[], .element (str "b") [] [], str "b", []⟩].Sublist
      (([⟨[], .element (str "z") [] [], str "z", []⟩,
        ⟨[], .element (str "b") [] [], str "b", []⟩,
        ⟨[], .element (str "b") [] [], str "b", []⟩] :
          List ElementAndContext).insertionSort ecLe) :=
  ⟨C5_ord_elem_composite_and_stable.1 _ _,
    C5_ord_elem_composite_and_stable.2 _ _ _ rfl
      ((List.Sublist.refl _).cons _)⟩

/-- Claim C3 (failing at this input): sorting is not idempotent.  Because
the `pre` accumulator is never cleared, the first sort of the children
`[comment, <x/>, <y/>]` yields `[comment, <x/>, comment, <y/>]`, and the
second sort yields `[comment, <x/>, comment, comment, <y/>]`, so the
serialized outputs of `sort(d, true)` and `sort(sort(d, true), true)`
differ. -/
theorem C3_sort_not_idempotent :
    ((XDoc.sort ⟨none, [], str "root", [],
        [.comment (str "a"), .element (str "x") [] [],
          .element (str "y") [] []], []⟩ true).bind
        (fun d1 => d1.sort true)).map (to_string asciiUcd) ≠
      (XDoc.sort ⟨none, [], str "root", [],
        [.comment (str "a"), .element (str "x") [] [],
          .element (str "y") [] []], []⟩ true).map (to_string asciiUcd) := by
  decide

/-- Claim C6, counterexample to the original wording: in `Standard` mode and
text context, an apostrophe and a newline (an ASCII control character) are
passed through unescaped, although the claim places `'` and ASCII controls
unconditionally in the to-escape set. -/
theorem C6_counterexample_kept_in_text :
    process_entities asciiUcd (str "'") .standard true true = str "'" ∧
    process_entities asciiUcd (str "\n") .standard true true = str "\n" :=
  ⟨rfl, rfl⟩

theorem escapeChar_of_not_needs {ucd : Ucd} {ch : Char}
    (h : needsEntityProcessing ucd ch = false) (mode : EntityMode)
    (aS iT : Bool) : escapeChar ucd mode aS iT ch = [ch] := by
  simp only [needsEntityProcessing, Bool.or_eq_false_iff, decide_eq_false_iff_not]
    at h
  obtain ⟨⟨⟨⟨⟨⟨⟨hlt, hgt⟩, hap⟩, hqu⟩, hamp⟩, hctl⟩, hsep⟩, hoth⟩ := h
  simp [escapeChar, hlt, hgt, hap, hqu, hamp, hctl, hsep, hoth]

theorem flatten_map_escapeChar_of_no_needs {ucd : Ucd} {input : Chars}
    (h : input.any (needsEntityProcessing ucd) = false) (mode : EntityMode)
    (aS iT : Bool) :
    (input.map (escapeChar ucd mode aS iT)).flatten = input := by
  induction input with
  | nil => rfl
  | cons c cs ih =>
    simp only [List.any_cons, Bool.or_eq_false_iff] at h
    simp [escapeChar_of_not_needs h.1, ih h.2]

set_option maxHeartbeats 1000000 in
/-- Claim C6 (amended): the serializer escapes a character exactly when it
is `&`, `<` or `>`; or `'`/`"` in `Hex` mode or outside text context; or a
non-whitespace ASCII control; or a separator/"other"-category character not
kept as whitespace (plain space is always kept; NBSP never; ASCII
whitespace controls are kept only in separator-allowing contexts) — and, in
`Standard` mode, `&` `<` `>` (and `'`/`"` in attribute context) use named
entities while every other escaped character uses an uppercase hex reference
padded to at least four digits.  The second conjunct: `process_entities` is
exactly this per-character escaping applied to the whole string (the
pass-through branch changes nothing). -/
theorem C6_escaping_characterization :
    (∀ (ucd : Ucd) (mode : EntityMode) (aS iT : Bool) (ch : Char),
      escapeChar ucd mode aS iT ch =
        if shouldEscapeSpec ucd mode aS iT ch then escapedFormSpec mode iT ch
        else [ch]) ∧
    (∀ (ucd : Ucd) (mode : EntityMode) (aS iT : Bool) (input : Chars),
      process_entities ucd input mode aS iT =
        (input.map (escapeChar ucd mode aS iT)).flatten) := by
  constructor
  · intro ucd mode aS iT ch
    by_cases h1 : ch = '&'
    · subst h1
      cases mode <;> cases iT <;>
        simp [escapeChar, shouldEscapeSpec, escapedFormSpec]
    · by_cases h2 : ch = '<'
      · subst h2
        cases mode <;> cases iT <;>
          simp [escapeChar, shouldEscapeSpec, escapedFormSpec]
      · by_cases h3 : ch = '>'
        · subst h3
          cases mode <;> cases iT <;>
            simp [escapeChar, shouldEscapeSpec, escapedFormSpec]
        · by_cases h4 : ch = '\''
          · subst h4
            by_cases hsep : ucd.isSeparator '\'' = true <;>
              by_cases hoth : ucd.isOther '\'' = true <;>
              cases mode <;> cases iT <;> cases aS <;>
              simp_all [escapeChar, shouldEscapeSpec, escapedFormSpec,
                keptAsWhitespace, isAsciiWhitespace, isAsciiControl, nbsp,
                UInt32.size]
          · by_cases h5 : ch = '"'
            · subst h5
              by_cases hsep : ucd.isSeparator '"' = true <;>
                by_cases hoth : ucd.isOther '"' = true <;>
                cases mode <;> cases iT <;> cases aS <;>
                simp_all [escapeChar, shouldEscapeSpec, escapedFormSpec,
                  keptAsWhitespace, isAsciiWhitespace, isAsciiControl, nbsp,
                  UInt32.size]
            · simp only [escapeChar, shouldEscapeSpec, escapedFormSpec,
                keptAsWhitespace, h1, h2, h3, h4, h5, false_and, and_false,
                false_or, or_false, if_false, ite_false, if_neg,
                not_false_iff]
              by_cases hc : isAsciiControl ch = true <;>
                by_cases hw : isAsciiWhitespace ch = true <;>
                by_cases hsep : ucd.isSeparator ch = true <;>
                by_cases hoth : ucd.isOther ch = true <;>
                by_cases hsp : ch = ' ' <;>
                by_cases hnb : ch = nbsp <;>
                cases aS <;>
                simp_all
  · intro ucd mode aS iT input
    unfold process_entities
    by_cases h : input.any (needsEntityProcessing ucd) = true
    · simp [h]
    · rw [if_neg h]
      rw [flatten_map_escapeChar_of_no_needs (Bool.of_not_eq_true h)]

/-- Claim C9 (amended with "a single space before the slash in both
cases"): an element with no children always renders as a self-closing tag
with a single space before the slash, in every configuration; with no
attributes the part between the name and `" />"` is empty. -/
theorem C9_self_closing_render (ucd : Ucd) (cfg : SerConfig) (st : SerState)
    (name : Chars) (attrs : List (Chars × Chars)) :
    ∃ attrsPart,
      printElement ucd cfg st name attrs [] =
        pad st.indent ++ ['<'] ++ name ++ attrsPart ++ str " />" ++
          (if st.is_pretty then ['\n'] else []) ∧
      (attrs = [] → attrsPart = []) := by
  cases attrs with
  | nil => exact ⟨[], by simp [printElement, printNode], fun _ => rfl⟩
  | cons kv rest =>
    refine
      ⟨(if st.is_pretty &&
            decide (cfg.max_line_length < firstAttrLineLength name (kv :: rest))
          then '\n' :: pad (st.indent + cfg.indent) else [' ']) ++
          fmt_attrs ucd cfg name st (kv :: rest), ?_, by simp⟩
    simp [printElement, printNode]

/-- Witness for C9 at a concrete element with one attribute. -/
theorem C9_self_closing_render_witness :
    ∃ attrsPart,
      printElement asciiUcd SerConfig.default ⟨false, 0⟩ (str "wow")
          [(str "easy", str "true")] [] =
        pad 0 ++ ['<'] ++ str "wow" ++ attrsPart ++ str " />" ++
          (if (false : Bool) then ['\n'] else []) ∧
      ([(str "easy", str "true")] = ([] : List (Chars × Chars)) →
        attrsPart = []) :=
  C9_self_closing_render asciiUcd SerConfig.default ⟨false, 0⟩ (str "wow")
    [(str "easy", str "true")]

/-- Claim C9, counterexample to the original wording: an attribute-less
childless element renders as `<potato />` with a space, not `<potato/>`. -/
theorem C9_counterexample_space_without_attributes :
    to_string asciiUcd ⟨none, [], str "potato", [], [], []⟩ = str "<potato />" ∧
    str "<potato />" ≠ str "<potato/>" :=
  ⟨rfl, by decide⟩

/-- Claim C7, counterexample to the original wording: a whitespace-only text
event *inside* the open root element is dropped, not preserved — parsing
`<root> </root>`'s events yields a root with no children. -/
theorem C7_counterexample_ws_text_in_element_dropped :
    from_reader [.ok (.startTag (str "root") []), .ok (.text (str " ")),
        .ok (.endTag (str "root"))] =
      .ok ⟨none, [], str "root", [], [], []⟩ := rfl

/-- Claim C7 (amended): whitespace-only text events are dropped everywhere —
both outside any open element (first loop) and inside an open element
(second loop) — while non-whitespace text inside an open element is
appended as a Text child of the innermost open element. -/
theorem C7_whitespace_only_text_dropped :
    (∀ (st : P2State) (raw t : Chars), unescapeChars raw = some t →
      rustTrim t = [] → p2step st (.text raw) = .next st) ∧
    (∀ (decl : Option XDecl) (before : List XNode) (raw t : Chars)
      (rest : List (Except Unit XmlEvent)), unescapeChars raw = some t →
      rustTrim t = [] →
      phase1 decl before (.ok (.text raw) :: rest) = phase1 decl before rest) ∧
    (∀ (st : P2State) (raw t : Chars) (f : Frame) (fs : List Frame),
      unescapeChars raw = some t → rustTrim t ≠ [] → st.stack = f :: fs →
      p2step st (.text raw) =
        .next { st with
          stack := ⟨f.name, f.attrs, f.children ++ [.text t]⟩ :: fs }) := by
  refine ⟨?_, ?_, ?_⟩
  · intro st raw t hu htr
    simp [p2step, hu, htr]
  · intro decl before raw t rest hu htr
    cases raw with
    | nil => simp [phase1]
    | cons c cs => simp [phase1, hu, htr]
  · intro st raw t f fs hu htr hst
    simp [p2step, hu, htr, hst]

/-- Witness for C7 at a concrete state and the text event `" "`. -/
theorem C7_whitespace_only_text_dropped_witness :
    p2step ⟨none, [], str "root", [], [⟨str "root", [], []⟩], [], []⟩
        (.text (str " ")) =
      .next ⟨none, [], str "root", [], [⟨str "root", [], []⟩], [], []⟩ :=
  C7_whitespace_only_text_dropped.1 _ _ (str " ") rfl rfl

/-- Claim C8, counterexample to the original wording: parsing empty input
(no events before end of input) panics at the `panic!("Uhh... ")` catch-all
instead of returning a parse error. -/
theorem C8_counterexample_empty_input_panics :
    from_reader [] = .panicked ∧
    ∀ e, LoadResult.panicked ≠ LoadResult.err e :=
  ⟨rfl, fun _ h => nomatch h⟩

/-- Claim C8 (amended): parsing empty input panics (the pre-root loop's
catch-all) rather than returning an error; a start or empty tag seen while
no element is open (after the root has fully closed) yields the specific
`SupplementaryElement` error; and an error from the underlying reader is
returned as a typed `Parse` failure in both loops. -/
theorem C8_error_behaviour :
    from_reader [] = .panicked ∧
    (∀ (st : P2State) (name : Chars) (attrs : List (Chars × Chars)),
      st.stack = [] → isValidQName name = true →
      p2step st (.startTag name attrs) =
          .halt (.err (.supplementaryElement name)) ∧
        p2step st (.emptyTag name attrs) =
          .halt (.err (.supplementaryElement name))) ∧
    (∀ (decl : Option XDecl) (before : List XNode)
      (rest : List (Except Unit XmlEvent)),
      phase1 decl before (.error () :: rest) = .err .parse) ∧
    (∀ (st : P2State) (rest : List (Except Unit XmlEvent)),
      phase2 st (.error () :: rest) = .err .parse) := by
  refine ⟨rfl, ?_, ?_, ?_⟩
  · intro st name attrs hst hv
    constructor <;> simp [p2step, hst, hv]
  · intro decl before rest
    simp [phase1]
  · intro st rest
    simp [phase2]

/-- Witness for C8 at a concrete closed-root state and tag name. -/
theorem C8_error_behaviour_witness :
    p2step ⟨none, [], str "root", [], [], [], []⟩ (.startTag (str "x") []) =
        .halt (.err (.supplementaryElement (str "x"))) ∧
      p2step ⟨none, [], str "root", [], [], [], []⟩ (.emptyTag (str "x") []) =
        .halt (.err (.supplementaryElement (str "x"))) :=
  C8_error_behaviour.2.1 ⟨none, [], str "root", [], [], [], []⟩ (str "x") []
    rfl rfl

/-- Claim C1, counterexample to the original wording: `<root></root>` is a
well-formed input with no surrounding top-level whitespace, but parsing and
re-serializing it (non-pretty, untouched) yields `<root />`, not the
original text: the serializer always writes childless elements in
self-closing form. -/
theorem C1_counterexample_empty_tag_normalized :
    from_str (str "<root></root>") = .ok ⟨none, [], str "root", [], [], []⟩ ∧
    to_string asciiUcd ⟨none, [], str "root", [], [], []⟩ = str "<root />" ∧
    str "<root />" ≠ str "<root></root>" :=
  ⟨rfl, rfl, by decide⟩
theorem hexValAux_append (xs ys : Chars) (acc : Nat) :
    hexValAux acc (xs ++ ys) =
      (hexValAux acc xs).bind fun v => hexValAux v ys := by
  induction xs generalizing acc with
  | nil => simp [hexValAux]
  | cons c cs ih =>
    simp only [List.cons_append, hexValAux]
    cases hexDigitVal c with
    | none => simp
    | some d => simp [ih]

theorem hexDigitVal_hexDigit {m : Nat} (h : m < 16) :
    hexDigitVal (hexDigit m) = some m := by
  interval_cases m <;> rfl

theorem isHexDigit_of_mem_toHexAux {fuel n : Nat} {c : Char}
    (h : c ∈ toHexAux fuel n) : (hexDigitVal c).isSome := by
  induction fuel generalizing n with
  | zero => cases h
  | succ fuel ih =>
    unfold toHexAux at h
    split at h
    · cases h
    · rcases List.mem_append.mp h with h | h
      · exact ih h
      · rcases List.mem_singleton.mp h with rfl
        rw [hexDigitVal_hexDigit (Nat.mod_lt _ (by omega))]
        rfl

theorem hexValAux_toHexAux :
    ∀ (fuel n acc : Nat), n < 16 ^ fuel →
      hexValAux acc (toHexAux fuel n) =
        some (acc * 16 ^ (toHexAux fuel n).length + n) := by
  intro fuel
  induction fuel with
  | zero =>
    intro n acc h
    have : n = 0 := by omega
    subst this
    simp [toHexAux, hexValAux]
  | succ fuel ih =>
    intro n acc h
    unfold toHexAux
    by_cases hn : n = 0
    · simp [hn, hexValAux]
    · rw [if_neg hn, hexValAux_append]
      have hdiv : n / 16 < 16 ^ fuel := by
        rw [Nat.div_lt_iff_lt_mul (by omega)]
        calc n < 16 ^ (fuel + 1) := h
        _ = 16 ^ fuel * 16 := by rw [pow_succ]
      rw [ih (n / 16) acc hdiv, Option.some_bind]
      have hd := hexDigitVal_hexDigit (Nat.mod_lt n (show 0 < 16 by omega))
      simp only [hexValAux, hd, List.length_append, List.length_singleton]
      congr 1
      have hmod := Nat.div_add_mod n 16
      calc 16 * (acc * 16 ^ (toHexAux fuel (n / 16)).length + n / 16) + n % 16
          = acc * (16 ^ (toHexAux fuel (n / 16)).length * 16) +
              (16 * (n / 16) + n % 16) := by ring
        _ = acc * 16 ^ ((toHexAux fuel (n / 16)).length + 1) + n := by
            rw [hmod, pow_succ]

theorem hexValAux_replicate_zero (k : Nat) :
    hexValAux 0 (List.replicate k '0') = some 0 := by
  have h0 : hexDigitVal '0' = some 0 := by decide
  induction k with
  | zero => rfl
  | succ k ih => simpa [List.replicate_succ, hexValAux, h0] using ih

theorem toHex_ne_nil (n : Nat) : toHex n ≠ [] := by
  unfold toHex
  split
  · simp
  · show toHexAux (7 + 1) n ≠ []
    unfold toHexAux
    rw [if_neg (by assumption)]
    simp

theorem hexVal_pad_toHex {n : Nat} (h : n < 16 ^ 8) (k : Nat) :
    hexVal (List.replicate k '0' ++ toHex n) = some n := by
  have h0 : hexDigitVal '0' = some 0 := by decide
  have hto : hexValAux 0 (toHex n) = some n := by
    unfold toHex
    by_cases hn : n = 0
    · simp [hn, hexValAux, h0]
    · rw [if_neg hn, hexValAux_toHexAux 8 n 0 h]
      simp
  have happ : hexValAux 0 (List.replicate k '0' ++ toHex n) = some n := by
    rw [hexValAux_append, hexValAux_replicate_zero]
    simpa using hto
  have hne : List.replicate k '0' ++ toHex n ≠ [] := by
    simp [toHex_ne_nil n]
  have hexVal_cons : ∀ (c : Char) (cs : Chars),
      hexVal (c :: cs) = hexValAux 0 (c :: cs) := fun _ _ => rfl
  rcases hcs : List.replicate k '0' ++ toHex n with _ | ⟨c, cs⟩
  · exact absurd hcs hne
  · rw [hcs] at happ
    rw [hexVal_cons, happ]
theorem unescapeAux_scan (ds : Chars) (hds : ∀ c ∈ ds, c ≠ ';') :
    ∀ (buf rest : Chars),
      unescapeAux (ds ++ ';' :: rest) (some buf) =
        match entityValue (buf.reverse ++ ds) with
        | some ch => (unescapeAux rest none).map (ch :: ·)
        | none => none := by
  induction ds with
  | nil =>
    intro buf rest
    simp [unescapeAux]
  | cons d ds ih =>
    intro buf rest
    have hd : d ≠ ';' := hds d (List.mem_cons_self _ _)
    have hds' : ∀ c ∈ ds, c ≠ ';' := fun c hc => hds c (List.mem_cons_of_mem _ hc)
    simp only [List.cons_append, unescapeAux, if_neg hd, List.append_eq]
    rw [ih hds' (d :: buf) rest]
    simp

theorem charOfNat_val (c : Char) : charOfNat c.val.toNat = some c := by
  unfold charOfNat
  rw [if_pos c.valid]
  congr 1
  exact Char.ofNat_toNat c

theorem entityValue_hex (ds : Chars) :
    entityValue ('#' :: 'x' :: ds) = (hexVal ds).bind charOfNat := by
  unfold entityValue
  simp [str]

theorem val_lt_16_pow_8 (c : Char) : c.val.toNat < 16 ^ 8 := by
  have h : c.val.toNat < 0xd800 ∨ 0xe000 ≤ c.val.toNat ∧ c.val.toNat < 0x110000 :=
    c.valid
  have h8 : (16 : Nat) ^ 8 = 4294967296 := by norm_num
  omega

theorem mem_hexDigits_ne {x : Char} {n : Nat}
    (hx : x ∈ List.replicate (4 - (toHex n).length) '0' ++ toHex n) :
    (hexDigitVal x).isSome := by
  rcases List.mem_append.mp hx with hx | hx
  · rcases List.eq_of_mem_replicate hx with rfl
    decide
  · unfold toHex at hx
    split at hx
    · rcases List.mem_singleton.mp hx with rfl
      decide
    · exact isHexDigit_of_mem_toHexAux hx

theorem unescapeAux_hexRef (c : Char) (rest : Chars) :
    unescapeAux (hexRef c ++ rest) none =
      (unescapeAux rest none).map (c :: ·) := by
  have hds : ∀ x ∈ '#' :: 'x' ::
      (List.replicate (4 - (toHex c.val.toNat).length) '0' ++ toHex c.val.toNat),
      x ≠ ';' := by
    intro x hx
    rcases List.mem_cons.mp hx with rfl | hx
    · decide
    rcases List.mem_cons.mp hx with rfl | hx
    · decide
    · have hd := mem_hexDigits_ne hx
      intro hcontra
      rw [hcontra] at hd
      exact absurd hd (by decide)
  have hshape : hexRef c ++ rest =
      '&' :: (('#' :: 'x' ::
        (List.replicate (4 - (toHex c.val.toNat).length) '0' ++
          toHex c.val.toNat)) ++ (';' :: rest)) := by
    simp [hexRef, str]
  have hstep : ∀ t, unescapeAux ('&' :: t) none = unescapeAux t (some []) := by
    intro t
    rw [unescapeAux, if_pos rfl]
  rw [hshape, hstep, unescapeAux_scan _ hds]
  simp only [List.reverse_nil, List.nil_append, entityValue_hex,
    hexVal_pad_toHex (val_lt_16_pow_8 c), Option.some_bind, charOfNat_val]
theorem unescapeAux_cons_plain {c : Char} (hc : c ≠ '&') (rest : Chars) :
    unescapeAux (c :: rest) none = (unescapeAux rest none).map (c :: ·) := by
  rw [unescapeAux, if_neg hc]

theorem unescape_escapeChar (ucd : Ucd) (aS iT : Bool) (c : Char)
    (rest : Chars) :
    unescapeAux (escapeChar ucd .standard aS iT c ++ rest) none =
      (unescapeAux rest none).map (c :: ·) := by
  unfold escapeChar
  split_ifs with h1 h2 h3 h4 h5 h6 h7
  · rw [h1.2]
    simp [str, unescapeAux, entityValue]
  · rw [h2.2.1]
    simp [str, unescapeAux, entityValue]
  · rw [h3.2.1]
    simp [str, unescapeAux, entityValue]
  · rw [h4.2]
    simp [str, unescapeAux, entityValue]
  · rw [h5.2]
    simp [str, unescapeAux, entityValue]
  · exact absurd h6.1 (by decide)
  · exact unescapeAux_hexRef c rest
  · dsimp only
    split_ifs with h8
    · have hc : c ≠ '&' := fun hcontra => h1 ⟨rfl, hcontra⟩
      exact unescapeAux_cons_plain hc rest
    · exact unescapeAux_hexRef c rest
theorem hexRef_mem {x : Char} {c : Char} (hx : x ∈ hexRef c) :
    x = '&' ∨ x = '#' ∨ x = 'x' ∨ x = ';' ∨ (hexDigitVal x).isSome := by
  have hpre : str "&#x" = ['&', '#', 'x'] := rfl
  simp only [hexRef, hpre] at hx
  rcases List.mem_append.mp hx with hx | hx
  · rcases List.mem_append.mp hx with hx | hx
    · simp only [List.mem_cons, List.not_mem_nil, or_false] at hx
      rcases hx with rfl | rfl | rfl
      · exact .inl rfl
      · exact .inr (.inl rfl)
      · exact .inr (.inr (.inl rfl))
    · exact .inr (.inr (.inr (.inr (mem_hexDigits_ne hx))))
  · rcases List.mem_singleton.mp hx with rfl
    exact .inr (.inr (.inr (.inl rfl)))

theorem escapeChar_mem_safe (ucd : Ucd) (aS iT : Bool) (c : Char) :
    ∀ x ∈ escapeChar ucd .standard aS iT c,
      x ≠ '<' ∧ x ≠ '>' ∧ (iT = false → x ≠ '"') := by
  intro x hx
  have hhex : x ∈ hexRef c → x ≠ '<' ∧ x ≠ '>' ∧ (iT = false → x ≠ '"') := by
    intro hm
    rcases hexRef_mem hm with rfl | rfl | rfl | rfl | h
    · exact ⟨by decide, by decide, fun _ => by decide⟩
    · exact ⟨by decide, by decide, fun _ => by decide⟩
    · exact ⟨by decide, by decide, fun _ => by decide⟩
    · exact ⟨by decide, by decide, fun _ => by decide⟩
    · refine ⟨?_, ?_, fun _ => ?_⟩ <;>
        (rintro rfl
         exact absurd h (by decide))
  have hamp : str "&amp;" = ['&', 'a', 'm', 'p', ';'] := rfl
  have hapos : str "&apos;" = ['&', 'a', 'p', 'o', 's', ';'] := rfl
  have hquot : str "&quot;" = ['&', 'q', 'u', 'o', 't', ';'] := rfl
  have hlt : str "&lt;" = ['&', 'l', 't', ';'] := rfl
  have hgt : str "&gt;" = ['&', 'g', 't', ';'] := rfl
  unfold escapeChar at hx
  split_ifs at hx with h1 h2 h3 h4 h5 h6 h7
  · rw [hamp] at hx
    simp only [List.mem_cons, List.not_mem_nil, or_false] at hx
    rcases hx with rfl | rfl | rfl | rfl | rfl <;>
      exact ⟨by decide, by decide, fun _ => by decide⟩
  · rw [hapos] at hx
    simp only [List.mem_cons, List.not_mem_nil, or_false] at hx
    rcases hx with rfl | rfl | rfl | rfl | rfl | rfl <;>
      exact ⟨by decide, by decide, fun _ => by decide⟩
  · rw [hquot] at hx
    simp only [List.mem_cons, List.not_mem_nil, or_false] at hx
    rcases hx with rfl | rfl | rfl | rfl | rfl | rfl <;>
      exact ⟨by decide, by decide, fun _ => by decide⟩
  · rw [hlt] at hx
    simp only [List.mem_cons, List.not_mem_nil, or_false] at hx
    rcases hx with rfl | rfl | rfl | rfl <;>
      exact ⟨by decide, by decide, fun _ => by decide⟩
  · rw [hgt] at hx
    simp only [List.mem_cons, List.not_mem_nil, or_false] at hx
    rcases hx with rfl | rfl | rfl | rfl <;>
      exact ⟨by decide, by decide, fun _ => by decide⟩
  · exact absurd h6.1 (by decide)
  · exact hhex hx
  · dsimp only at hx
    split_ifs at hx with h8
    · rcases List.mem_singleton.mp hx with rfl
      exact ⟨fun hc => h4 ⟨rfl, hc⟩, fun hc => h5 ⟨rfl, hc⟩,
        fun hT hc => h3 ⟨rfl, hc, hT⟩⟩
    · exact hhex hx

theorem escapeChar_ne_nil (ucd : Ucd) (mode : EntityMode) (aS iT : Bool)
    (c : Char) : escapeChar ucd mode aS iT c ≠ [] := by
  have hhex : hexRef c ≠ [] := by
    simp [hexRef, str]
  unfold escapeChar
  dsimp only
  split_ifs <;> first | exact hhex | simp [str]
theorem process_entities_mem_safe (ucd : Ucd) (aS iT : Bool) (s : Chars) :
    ∀ x ∈ process_entities ucd s .standard aS iT,
      x ≠ '<' ∧ x ≠ '>' ∧ (iT = false → x ≠ '"') := by
  intro x hx
  unfold process_entities at hx
  split_ifs at hx with h
  · rcases List.mem_flatten.mp hx with ⟨l, hl, hxl⟩
    rcases List.mem_map.mp hl with ⟨c, _, rfl⟩
    exact escapeChar_mem_safe ucd aS iT c x hxl
  · have hgate : ∀ y, y = '<' ∨ y = '>' ∨ y = '"' →
        needsEntityProcessing ucd y = true := by
      rintro y (rfl | rfl | rfl) <;> simp [needsEntityProcessing]
    refine ⟨?_, ?_, fun _ => ?_⟩ <;>
      (rintro rfl
       exact h (List.any_eq_true.mpr ⟨_, hx, hgate _ (by tauto)⟩))

theorem process_entities_ne_nil (ucd : Ucd) (aS iT : Bool) {s : Chars}
    (hs : s ≠ []) : process_entities ucd s .standard aS iT ≠ [] := by
  unfold process_entities
  split_ifs with h
  · cases s with
    | nil => exact absurd rfl hs
    | cons c cs =>
      simp only [List.map_cons, List.flatten_cons]
      intro hcontra
      rcases List.append_eq_nil.mp hcontra with ⟨h1, _⟩
      exact escapeChar_ne_nil ucd .standard aS iT c h1
  · exact hs
theorem splitSeq_shrink {m : Chars} (hm : m ≠ []) :
    ∀ {cs a b : Chars}, splitSeq m cs = some (a, b) → b.length < cs.length := by
  intro cs
  induction cs with
  | nil => intro a b h; cases h
  | cons c rest ih =>
    intro a b h
    unfold splitSeq at h
    split_ifs at h with hp
    · have hab := Option.some.inj h
      rw [Prod.mk.injEq] at hab
      obtain ⟨rfl, rfl⟩ := hab
      have hml : 1 ≤ m.length := by
        cases m with
        | nil => exact absurd rfl hm
        | cons _ _ => simp
      simp only [List.length_drop, List.length_cons]
      omega
    · cases hsp : splitSeq m rest with
      | none => rw [hsp] at h; cases h
      | some p =>
        rw [hsp] at h
        have hab := Option.some.inj h
        obtain ⟨p1, p2⟩ := p
        rw [Prod.mk.injEq] at hab
        obtain ⟨rfl, rfl⟩ := hab
        have := ih hsp
        simp only [List.length_cons]
        omega

theorem splitSeq_single (c0 : Char) :
    ∀ (a : Chars), c0 ∉ a → ∀ (b : Chars),
      splitSeq [c0] (a ++ c0 :: b) = some (a, b) := by
  intro a
  induction a with
  | nil =>
    intro _ b
    rw [List.nil_append]
    unfold splitSeq
    rw [if_pos (by simp [List.isPrefixOf])]
    simp
  | cons x xs ih =>
    intro hnm b
    have hx : x ≠ c0 := fun h => hnm (h ▸ List.mem_cons_self _ _)
    have hxs : c0 ∉ xs := fun h => hnm (List.mem_cons_of_mem _ h)
    rw [List.cons_append]
    unfold splitSeq
    rw [if_neg (by simp [List.isPrefixOf, Ne.symm hx])]
    rw [ih hxs b]
    rfl
theorem splitSeq_dashes :
    ∀ (a : Chars), '>' ∉ a → ∀ (b : Chars),
      splitSeq (str "-->") (a ++ str "-->" ++ b) = some (a, b) := by
  have hm : str "-->" = ['-', '-', '>'] := rfl
  intro a
  induction a with
  | nil =>
    intro _ b
    rw [hm]
    show splitSeq ['-', '-', '>'] ('-' :: '-' :: '>' :: b) = some ([], b)
    unfold splitSeq
    rw [if_pos (by simp [List.isPrefixOf])]
    simp
  | cons x xs ih =>
    intro hnm b
    have hxs : '>' ∉ xs := fun h => hnm (List.mem_cons_of_mem _ h)
    rw [hm]
    show splitSeq ['-', '-', '>'] (x :: (xs ++ ['-', '-', '>'] ++ b)) = _
    unfold splitSeq
    rw [if_neg ?hneg]
    case hneg =>
      intro hp
      rw [List.isPrefixOf_iff_prefix] at hp
      rcases hp with ⟨t, ht⟩
      cases xs with
      | nil => simp at ht
      | cons y ys =>
        cases ys with
        | nil => simp at ht
        | cons z zs =>
          simp only [List.cons_append, List.append_assoc, List.cons.injEq]
            at ht
          obtain ⟨_, _, hz, _⟩ := ht
          exact hnm (by
            rw [← hz]
            exact List.mem_cons_of_mem _ (List.mem_cons_of_mem _
              (List.mem_cons_self _ _)))
    have hih := ih hxs b
    rw [hm] at hih
    rw [hih]
    rfl
theorem splitSeq_cdata_end :
    ∀ (a : Chars), ¬ hasInfix (str "]]>") a → ∀ (b : Chars),
      splitSeq (str "]]>") (a ++ str "]]>" ++ b) = some (a, b) := by
  have hm : str "]]>" = [']', ']', '>'] := rfl
  intro a
  induction a with
  | nil =>
    intro _ b
    rw [hm]
    show splitSeq [']', ']', '>'] (']' :: ']' :: '>' :: b) = some ([], b)
    unfold splitSeq
    rw [if_pos (by simp [List.isPrefixOf])]
    simp
  | cons x xs ih =>
    intro hnm b
    have hxs : ¬ hasInfix (str "]]>") xs := by
      intro ⟨i, hi⟩
      exact hnm ⟨i + 1, by simpa using hi⟩
    rw [hm]
    show splitSeq [']', ']', '>'] (x :: (xs ++ [']', ']', '>'] ++ b)) = _
    unfold splitSeq
    rw [if_neg ?hneg]
    case hneg =>
      intro hp
      rw [List.isPrefixOf_iff_prefix] at hp
      rcases hp with ⟨t, ht⟩
      cases xs with
      | nil => simp at ht
      | cons y ys =>
        cases ys with
        | nil => simp at ht
        | cons z zs =>
          simp only [List.cons_append, List.append_assoc, List.cons.injEq]
            at ht
          obtain ⟨hx, hy, hz, _⟩ := ht
          exact hnm ⟨0, by
            rw [List.drop_zero, hm, ← hx, ← hy, ← hz]
            exact ⟨zs, rfl⟩⟩
    have hih := ih hxs b
    rw [hm] at hih
    rw [hih]
    rfl

theorem splitSeq_questiongt :
    ∀ (a : Chars), '?' ∉ a → ∀ (b : Chars),
      splitSeq (str "?>") (a ++ str "?>" ++ b) = some (a, b) := by
  have hm : str "?>" = ['?', '>'] := rfl
  intro a
  induction a with
  | nil =>
    intro _ b
    rw [hm]
    show splitSeq ['?', '>'] ('?' :: '>' :: b) = some ([], b)
    unfold splitSeq
    rw [if_pos (by simp [List.isPrefixOf])]
    simp
  | cons x xs ih =>
    intro hnm b
    have hxs : '?' ∉ xs := fun h => hnm (List.mem_cons_of_mem _ h)
    rw [hm]
    show splitSeq ['?', '>'] (x :: (xs ++ ['?', '>'] ++ b)) = _
    unfold splitSeq
    rw [if_neg ?hneg]
    case hneg =>
      intro hp
      rw [List.isPrefixOf_iff_prefix] at hp
      rcases hp with ⟨t, ht⟩
      simp only [List.cons_append, List.append_assoc, List.cons.injEq] at ht
      exact hnm (ht.1 ▸ List.mem_cons_self _ _)
    have hih := ih hxs b
    rw [hm] at hih
    rw [hih]
    rfl
theorem takeWhile_append_exact (p : Char → Bool) :
    ∀ (a : Chars), (∀ c ∈ a, p c = true) →
      ∀ (rest : Chars), (rest = [] ∨ ∃ r rs, rest = r :: rs ∧ p r = false) →
      (a ++ rest).takeWhile p = a ∧ (a ++ rest).drop a.length = rest := by
  intro a
  induction a with
  | nil =>
    intro _ rest hrest
    rcases hrest with rfl | ⟨r, rs, rfl, hr⟩
    · simp
    · simp [List.takeWhile_cons, hr]
  | cons x xs ih =>
    intro ha rest hrest
    have hx : p x = true := ha x (List.mem_cons_self _ _)
    have ⟨h1, h2⟩ := ih (fun c hc => ha c (List.mem_cons_of_mem _ hc)) rest hrest
    refine ⟨?_, ?_⟩
    · simp [List.takeWhile_cons, hx, h1]
    · simp [h2]

theorem isNameChar_excludes {c : Char} (h : isNameChar c = true) :
    c ≠ ' ' ∧ c ≠ '/' ∧ c ≠ '>' ∧ c ≠ '<' ∧ c ≠ '=' ∧ c ≠ '"' ∧
      c ≠ '\t' ∧ c ≠ '\n' ∧ c ≠ '\r' ∧ c ≠ '?' ∧ c ≠ '!' ∧ c ≠ '&' := by
  refine ⟨?_, ?_, ?_, ?_, ?_, ?_, ?_, ?_, ?_, ?_, ?_, ?_⟩ <;>
    (rintro rfl
     exact absurd h (by decide))

theorem tagStop_of_nameChar {c : Char} (h : isNameChar c = true) :
    tagStop c = false := by
  obtain ⟨h1, h2, h3, _, _, _, h7, h8, h9, _⟩ := isNameChar_excludes h
  simp [tagStop, h1, h2, h3, h7, h8, h9]

theorem attrKeyStop_of_nameChar {c : Char} (h : isNameChar c = true) :
    attrKeyStop c = false := by
  obtain ⟨h1, h2, h3, _, h5, h6, h7, h8, h9, _⟩ := isNameChar_excludes h
  simp [attrKeyStop, h1, h2, h3, h5, h6, h7, h8, h9]

theorem isTagSpace_of_nameChar {c : Char} (h : isNameChar c = true) :
    isTagSpace c = false := by
  obtain ⟨h1, _, _, _, _, _, h7, h8, h9, _⟩ := isNameChar_excludes h
  simp [isTagSpace, h1, h7, h8, h9]

theorem isNameChar_of_start {c : Char} (h : isNameStartChar c = true) :
    isNameChar c = true := by
  simp [isNameChar, h]

theorem validQName_chars {n : Chars} (h : isValidQName n = true) :
    ∀ c ∈ n, isNameChar c = true := by
  cases n with
  | nil => cases h
  | cons c0 cs =>
    simp only [isValidQName, Bool.and_eq_true, List.all_eq_true] at h
    intro c hc
    rcases List.mem_cons.mp hc with rfl | hc
    · exact isNameChar_of_start h.1
    · exact h.2 c hc

theorem validQName_ne_nil {n : Chars} (h : isValidQName n = true) : n ≠ [] := by
  cases n with
  | nil => cases h
  | cons _ _ => simp
theorem dropWhile_cons_false {p : Char → Bool} {c : Char} {cs : Chars}
    (h : p c = false) : (c :: cs).dropWhile p = c :: cs := by
  simp [List.dropWhile_cons, h]

theorem escAttrVal_no_quot (ucd : Ucd) (v : Chars) :
    ∀ x ∈ escAttrVal ucd v, x ≠ '"' :=
  fun x hx => (process_entities_mem_safe ucd false false v x hx).2.2 rfl

theorem lexAttrs_render (ucd : Ucd) (tail : Chars) (flag : Bool) (rest : Chars)
    (htail : ∀ fuel, lexAttrs (fuel + 1) tail = some ([], flag, rest)) :
    ∀ (attrs : List (Chars × Chars)) (fuel : Nat), attrs.length < fuel →
      (∀ kv ∈ attrs, isValidQName kv.1 = true) →
      lexAttrs fuel (renderAttrsSp ucd attrs ++ tail) =
        some (escAttrs ucd attrs, flag, rest) := by
  intro attrs
  induction attrs with
  | nil =>
    intro fuel hf _
    cases fuel with
    | zero => omega
    | succ fuel =>
      simpa [renderAttrsSp, escAttrs] using htail fuel
  | cons kv attrs ih =>
    intro fuel hf hkeys
    obtain ⟨k, v⟩ := kv
    cases fuel with
    | zero => omega
    | succ fuel =>
    have hk : isValidQName k = true := hkeys (k, v) (List.mem_cons_self _ _)
    have hkchars := validQName_chars hk
    cases k with
    | nil => exact absurd rfl (validQName_ne_nil hk)
    | cons k0 ks =>
    have hk0 := hkchars k0 (List.mem_cons_self _ _)
    obtain ⟨_, hk0s, hk0g, _⟩ := isNameChar_excludes hk0
    have hinput : renderAttrsSp ucd ((k0 :: ks, v) :: attrs) ++ tail =
        ' ' :: ((k0 :: ks) ++ ('=' :: '"' :: (escAttrVal ucd v ++
          ('"' :: (renderAttrsSp ucd attrs ++ tail))))) := by
      simp [renderAttrsSp, attrChunk, str, escAttrVal, SerConfig.default]
    rw [hinput]
    have hrest := '=' :: '"' :: (escAttrVal ucd v ++
      ('"' :: (renderAttrsSp ucd attrs ++ tail)))
    have htkd := takeWhile_append_exact (fun x => !attrKeyStop x) (k0 :: ks)
      (fun c hc => by simp [attrKeyStop_of_nameChar (hkchars c hc)])
      ('=' :: '"' :: (escAttrVal ucd v ++ ('"' :: (renderAttrsSp ucd attrs ++ tail))))
      (.inr ⟨'=', _, rfl, by decide⟩)
    obtain ⟨htk, hdr⟩ := htkd
    rw [List.cons_append] at htk hdr
    have hdrop : (' ' :: (k0 :: (ks ++ ('=' :: '"' :: (escAttrVal ucd v ++
        ('"' :: (renderAttrsSp ucd attrs ++ tail))))))).dropWhile isTagSpace =
        k0 :: (ks ++ ('=' :: '"' :: (escAttrVal ucd v ++
          ('"' :: (renderAttrsSp ucd attrs ++ tail))))) := by
      rw [List.dropWhile_cons, if_pos (by decide)]
      exact dropWhile_cons_false (isTagSpace_of_nameChar hk0)
    show lexAttrs (fuel + 1) _ = _
    unfold lexAttrs
    rw [List.cons_append]
    dsimp only
    rw [hdrop]
    dsimp only
    rw [if_neg hk0g, if_neg hk0s]
    rw [htk]
    simp only [List.isEmpty_cons, if_false, Bool.false_eq_true]
    rw [hdr]
    dsimp only
    rw [if_pos ⟨rfl, rfl⟩]
    have hvtk := takeWhile_append_exact (fun x => decide (x ≠ '"'))
      (escAttrVal ucd v)
      (fun c hc => by simp [escAttrVal_no_quot ucd v c hc])
      ('"' :: (renderAttrsSp ucd attrs ++ tail))
      (.inr ⟨'"', _, rfl, by decide⟩)
    obtain ⟨hvt, hvd⟩ := hvtk
    rw [hvt, hvd]
    dsimp only
    rw [if_pos rfl]
    rw [ih fuel (by simp at hf; omega)
      (fun kv hkv => hkeys kv (List.mem_cons_of_mem _ hkv))]
    simp [escAttrs, escAttrVal]
theorem lexAttrs_tail_empty (rest : Chars) :
    ∀ fuel, lexAttrs (fuel + 1) (' ' :: '/' :: '>' :: rest) =
      some ([], true, rest) := by
  intro fuel
  rfl

theorem lexAttrs_tail_open (rest : Chars) :
    ∀ fuel, lexAttrs (fuel + 1) ('>' :: rest) = some ([], false, rest) := by
  intro fuel
  rfl

theorem renderAttrsSp_length_ge (ucd : Ucd) :
    ∀ (attrs : List (Chars × Chars)),
      attrs.length ≤ (renderAttrsSp ucd attrs).length := by
  intro attrs
  induction attrs with
  | nil => simp [renderAttrsSp]
  | cons kv rest ih =>
    obtain ⟨k, v⟩ := kv
    simp only [renderAttrsSp, List.length_cons, List.length_append]
    omega

theorem not_isPrefixOf_cons {a c : Char} (as : Chars) {t : Chars}
    (h : a ≠ c) : (a :: as).isPrefixOf (c :: t) = false := by
  show (a == c && as.isPrefixOf t) = false
  have hb : (a == c) = false := by simp [h]
  rw [hb, Bool.false_and]

theorem nextEvent_tag (ucd : Ucd) {n : Chars} (hn : isValidQName n = true)
    {attrs : List (Chars × Chars)}
    (hkeys : ∀ kv ∈ attrs, isValidQName kv.1 = true)
    {term : Chars} {flag : Bool} {rest : Chars}
    (hterm : ∀ fuel, lexAttrs (fuel + 1) term = some ([], flag, rest))
    (hhead : ∃ r rs, renderAttrsSp ucd attrs ++ term = r :: rs ∧
      tagStop r = true) :
    nextEvent ('<' :: (n ++ (renderAttrsSp ucd attrs ++ term))) =
      some (.ok
        (if flag then .emptyTag n (escAttrs ucd attrs)
         else .startTag n (escAttrs ucd attrs)), rest) := by
  have hnchars := validQName_chars hn
  cases n with
  | nil => exact absurd rfl (validQName_ne_nil hn)
  | cons n0 ns =>
  have hn0 := hnchars n0 (List.mem_cons_self _ _)
  obtain ⟨_, hslash, _, _, _, _, _, _, _, hq, hbang, _⟩ := isNameChar_excludes hn0
  rw [List.cons_append]
  unfold nextEvent
  dsimp only
  rw [if_pos rfl]
  unfold lexMarkup
  have hp1 : (str "?").isPrefixOf
      (n0 :: (ns ++ (renderAttrsSp ucd attrs ++ term))) = false := by
    rw [show (str "?") = ['?'] from rfl]
    exact not_isPrefixOf_cons _ (fun e => hq e.symm)
  have hp2 : (str "!--").isPrefixOf
      (n0 :: (ns ++ (renderAttrsSp ucd attrs ++ term))) = false := by
    rw [show (str "!--") = '!' :: str "--" from rfl]
    exact not_isPrefixOf_cons _ (fun e => hbang e.symm)
  have hp3 : (str "![CDATA[").isPrefixOf
      (n0 :: (ns ++ (renderAttrsSp ucd attrs ++ term))) = false := by
    rw [show (str "![CDATA[") = '!' :: str "[CDATA[" from rfl]
    exact not_isPrefixOf_cons _ (fun e => hbang e.symm)
  have hp4 : (str "!DOCTYPE").isPrefixOf
      (n0 :: (ns ++ (renderAttrsSp ucd attrs ++ term))) = false := by
    rw [show (str "!DOCTYPE") = '!' :: str "DOCTYPE" from rfl]
    exact not_isPrefixOf_cons _ (fun e => hbang e.symm)
  have hp5 : (str "/").isPrefixOf
      (n0 :: (ns ++ (renderAttrsSp ucd attrs ++ term))) = false := by
    rw [show (str "/") = ['/'] from rfl]
    exact not_isPrefixOf_cons _ (fun e => hslash e.symm)
  simp only [hp1, hp2, hp3, hp4, hp5, Bool.false_eq_true, if_false]
  obtain ⟨r, rs, hrr, hstop⟩ := hhead
  have htkd := takeWhile_append_exact (fun x => !tagStop x) (n0 :: ns)
    (fun c hc => by simp [tagStop_of_nameChar (hnchars c hc)])
    (renderAttrsSp ucd attrs ++ term)
    (.inr ⟨r, rs, hrr, by simp [hstop]⟩)
  obtain ⟨htk, hdr⟩ := htkd
  rw [List.cons_append] at htk hdr
  rw [htk]
  simp only [List.isEmpty_cons, Bool.false_eq_true, if_false]
  rw [hdr]
  have hfuel : attrs.length <
      (n0 :: (ns ++ (renderAttrsSp ucd attrs ++ term))).length + 1 := by
    have h1 := renderAttrsSp_length_ge ucd attrs
    simp only [List.length_cons, List.length_append]
    omega
  rw [lexAttrs_render ucd term flag rest hterm attrs _ hfuel hkeys]
theorem unescapeAux_no_amp :
    ∀ {s : Chars}, (∀ c ∈ s, c ≠ '&') → unescapeAux s none = some s := by
  intro s
  induction s with
  | nil => intro _; rfl
  | cons c cs ih =>
    intro h
    have hc : c ≠ '&' := h c (List.mem_cons_self _ _)
    rw [unescapeAux_cons_plain hc, ih (fun x hx => h x (List.mem_cons_of_mem _ hx))]
    rfl

theorem unescapeChars_no_amp {s : Chars} (h : '&' ∉ s) :
    unescapeChars s = some s :=
  unescapeAux_no_amp (fun _ hc hce => h (hce ▸ hc))

theorem unescape_flatten (ucd : Ucd) (aS iT : Bool) :
    ∀ (s : Chars),
      unescapeAux ((s.map (escapeChar ucd .standard aS iT)).flatten) none =
        some s := by
  intro s
  induction s with
  | nil => rfl
  | cons c cs ih =>
    simp only [List.map_cons, List.flatten_cons]
    rw [unescape_escapeChar ucd aS iT c, ih]
    rfl

theorem unescape_process_entities (ucd : Ucd) (aS iT : Bool) (s : Chars) :
    unescapeChars (process_entities ucd s .standard aS iT) = some s := by
  unfold process_entities
  split_ifs with h
  · exact unescape_flatten ucd aS iT s
  · refine unescapeAux_no_amp fun c hc hce => ?_
    subst hce
    simp only [List.any_eq_true, not_exists, not_and] at h
    have := h '&' hc
    simp [needsEntityProcessing] at this

theorem NextChain.append :
    ∀ {evs : List XmlEvent} {a b : Chars} {evs2 : List XmlEvent} {c : Chars},
      NextChain a evs b → NextChain b evs2 c →
      NextChain a (evs ++ evs2) c := by
  intro evs
  induction evs with
  | nil =>
    intro a b evs2 c h1 h2
    cases h1
    exact h2
  | cons ev evs ih =>
    intro a b evs2 c h1 h2
    obtain ⟨cs', hne, hch⟩ := h1
    exact ⟨cs', hne, ih hch h2⟩

theorem lexAttrs_rem_le :
    ∀ (fuel : Nat) (cs0 : Chars) (attrs : List (Chars × Chars)) (flag : Bool)
      (rem : Chars), lexAttrs fuel cs0 = some (attrs, flag, rem) →
      rem.length ≤ cs0.length := by
  intro fuel
  induction fuel with
  | zero => intro cs0 attrs flag rem h; cases h
  | succ fuel ih =>
    intro cs0 attrs flag rem h
    have hlen : (cs0.dropWhile isTagSpace).length ≤ cs0.length :=
      (List.dropWhile_suffix _).length_le
    unfold lexAttrs at h
    dsimp only at h
    cases hcs : cs0.dropWhile isTagSpace with
    | nil => rw [hcs] at h; cases h
    | cons c cs1 =>
      rw [hcs] at h hlen
      dsimp only at h
      simp only [List.length_cons] at hlen
      by_cases hgt : c = '>'
      · rw [if_pos hgt] at h
        obtain ⟨rfl, rfl, rfl⟩ : attrs = [] ∧ flag = false ∧ rem = cs1 := by
          cases h; exact ⟨rfl, rfl, rfl⟩
        omega
      rw [if_neg hgt] at h
      by_cases hsl : c = '/'
      · rw [if_pos hsl] at h
        cases cs1 with
        | nil => cases h
        | cons c2 rest =>
          dsimp only at h
          by_cases hgt2 : c2 = '>'
          · rw [if_pos hgt2] at h
            obtain ⟨rfl, rfl, rfl⟩ : attrs = [] ∧ flag = true ∧ rem = rest := by
              cases h; exact ⟨rfl, rfl, rfl⟩
            simp only [List.length_cons] at hlen
            omega
          · rw [if_neg hgt2] at h
            cases h
      rw [if_neg hsl] at h
      by_cases hk : ((c :: cs1).takeWhile fun x => !attrKeyStop x).isEmpty = true
      · rw [if_pos hk] at h
        cases h
      rw [if_neg hk] at h
      cases hd1 : (c :: cs1).drop
          ((c :: cs1).takeWhile fun x => !attrKeyStop x).length with
      | nil => rw [hd1] at h; cases h
      | cons c1 cs1' =>
        cases cs1' with
        | nil => rw [hd1] at h; cases h
        | cons c2 cs2 =>
          rw [hd1] at h
          dsimp only at h
          by_cases heq : c1 = '=' ∧ c2 = '"'
          · rw [if_pos heq] at h
            cases hd2 : cs2.drop (cs2.takeWhile (· ≠ '"')).length with
            | nil => rw [hd2] at h; cases h
            | cons c3 cs3 =>
              rw [hd2] at h
              dsimp only at h
              by_cases hq : c3 = '"'
              · rw [if_pos hq] at h
                cases hrec : lexAttrs fuel cs3 with
                | none => rw [hrec] at h; cases h
                | some p =>
                  rw [hrec] at h
                  obtain ⟨p1, p2, p3⟩ := p
                  simp only [Option.map_some', Option.map_some, Option.some.injEq,
                    Prod.mk.injEq] at h
                  obtain ⟨-, -, h3⟩ := h
                  have h1 := ih cs3 p1 p2 p3 hrec
                  rw [h3] at h1
                  have hl1 := congrArg List.length hd1
                  have hl2 := congrArg List.length hd2
                  simp only [List.length_drop, List.length_cons] at hl1 hl2
                  omega
              · rw [if_neg hq] at h
                cases h
          · rw [if_neg heq] at h
            cases h
theorem markupSplit_le {m : Chars} (hm : m ≠ []) {k : Nat}
    {rest content rem : Chars}
    (hsp : splitSeq m (rest.drop k) = some (content, rem)) :
    rem.length ≤ rest.length := by
  have h1 := splitSeq_shrink hm hsp
  have h2 : (rest.drop k).length ≤ rest.length := by
    simp [List.length_drop]
  omega

theorem lexMarkup_rem_le (rest : Chars) (r : Except Unit XmlEvent)
    (rem : Chars) (h : lexMarkup rest = some (r, rem)) :
    rem.length ≤ rest.length := by
  unfold lexMarkup at h
  by_cases hp1 : (str "?").isPrefixOf rest = true
  · rw [if_pos hp1] at h
    cases hsp : splitSeq (str "?>") (rest.drop 1) with
    | none =>
      rw [hsp] at h
      simp only [Option.some.injEq, Prod.mk.injEq] at h
      obtain ⟨-, rfl⟩ := h
      simp
    | some p =>
      obtain ⟨content, rem'⟩ := p
      rw [hsp] at h
      dsimp only at h
      have hr : rem = rem' := by
        split_ifs at h <;>
          (simp only [Option.some.injEq, Prod.mk.injEq] at h
           exact h.2.symm)
      rw [hr]
      exact markupSplit_le (by simp [str]) hsp
  rw [if_neg hp1] at h
  by_cases hp2 : (str "!--").isPrefixOf rest = true
  · rw [if_pos hp2] at h
    cases hsp : splitSeq (str "-->") (rest.drop 3) with
    | none =>
      rw [hsp] at h
      simp only [Option.some.injEq, Prod.mk.injEq] at h
      obtain ⟨-, rfl⟩ := h
      simp
    | some p =>
      obtain ⟨content, rem'⟩ := p
      rw [hsp] at h
      simp only [Option.some.injEq, Prod.mk.injEq] at h
      obtain ⟨-, rfl⟩ := h
      exact markupSplit_le (by simp [str]) hsp
  rw [if_neg hp2] at h
  by_cases hp3 : (str "![CDATA[").isPrefixOf rest = true
  · rw [if_pos hp3] at h
    cases hsp : splitSeq (str "]]>") (rest.drop 8) with
    | none =>
      rw [hsp] at h
      simp only [Option.some.injEq, Prod.mk.injEq] at h
      obtain ⟨-, rfl⟩ := h
      simp
    | some p =>
      obtain ⟨content, rem'⟩ := p
      rw [hsp] at h
      simp only [Option.some.injEq, Prod.mk.injEq] at h
      obtain ⟨-, rfl⟩ := h
      exact markupSplit_le (by simp [str]) hsp
  rw [if_neg hp3] at h
  by_cases hp4 : (str "!DOCTYPE").isPrefixOf rest = true
  · rw [if_pos hp4] at h
    cases hsp : splitSeq (str ">") (rest.drop 8) with
    | none =>
      rw [hsp] at h
      simp only [Option.some.injEq, Prod.mk.injEq] at h
      obtain ⟨-, rfl⟩ := h
      simp
    | some p =>
      obtain ⟨content, rem'⟩ := p
      rw [hsp] at h
      simp only [Option.some.injEq, Prod.mk.injEq] at h
      obtain ⟨-, rfl⟩ := h
      exact markupSplit_le (by simp [str]) hsp
  rw [if_neg hp4] at h
  by_cases hp5 : (str "/").isPrefixOf rest = true
  · rw [if_pos hp5] at h
    cases hsp : splitSeq (str ">") (rest.drop 1) with
    | none =>
      rw [hsp] at h
      simp only [Option.some.injEq, Prod.mk.injEq] at h
      obtain ⟨-, rfl⟩ := h
      simp
    | some p =>
      obtain ⟨content, rem'⟩ := p
      rw [hsp] at h
      simp only [Option.some.injEq, Prod.mk.injEq] at h
      obtain ⟨-, rfl⟩ := h
      exact markupSplit_le (by simp [str]) hsp
  rw [if_neg hp5] at h
  dsimp only at h
  by_cases hne : (rest.takeWhile fun c => !tagStop c).isEmpty = true
  · rw [if_pos hne] at h
    simp only [Option.some.injEq, Prod.mk.injEq] at h
    obtain ⟨-, rfl⟩ := h
    simp
  rw [if_neg hne] at h
  cases hla : lexAttrs (rest.length + 1)
      (rest.drop (rest.takeWhile fun c => !tagStop c).length) with
  | none =>
    rw [hla] at h
    simp only [Option.some.injEq, Prod.mk.injEq] at h
    obtain ⟨-, rfl⟩ := h
    simp
  | some p =>
    obtain ⟨attrs', flag', rem'⟩ := p
    rw [hla] at h
    simp only [Option.some.injEq, Prod.mk.injEq] at h
    obtain ⟨-, rfl⟩ := h
    have h1 := lexAttrs_rem_le _ _ _ _ _ hla
    have h2 : (rest.drop
        (rest.takeWhile fun c => !tagStop c).length).length ≤ rest.length := by
      simp [List.length_drop]
    omega

theorem nextEvent_shrink {cs : Chars} {r : Except Unit XmlEvent} {cs' : Chars}
    (h : nextEvent cs = some (r, cs')) : cs'.length < cs.length := by
  cases cs with
  | nil => cases h
  | cons c rest =>
    unfold nextEvent at h
    dsimp only at h
    by_cases hc : c = '<'
    · rw [if_pos hc] at h
      have := lexMarkup_rem_le rest r cs' h
      simp only [List.length_cons]
      omega
    · rw [if_neg hc] at h
      simp only [Option.some.injEq, Prod.mk.injEq] at h
      obtain ⟨-, h2⟩ := h
      have htk : ((c :: rest).takeWhile (· ≠ '<')).length ≥ 1 := by
        rw [List.takeWhile_cons, if_pos (by simpa using hc)]
        simp
      rw [← h2]
      simp only [List.length_drop, List.length_cons]
      omega

theorem NextChain_length :
    ∀ {evs : List XmlEvent} {cs rest : Chars}, NextChain cs evs rest →
      evs.length + rest.length ≤ cs.length := by
  intro evs
  induction evs with
  | nil =>
    intro cs rest h
    cases h
    simp
  | cons ev evs ih =>
    intro cs rest h
    obtain ⟨cs', hne, hch⟩ := h
    have h1 := ih hch
    have h2 := nextEvent_shrink hne
    simp only [List.length_cons]
    omega

theorem lexFuel_succ (fuel : Nat) (cs : Chars) :
    lexFuel (fuel + 1) cs =
      match nextEvent cs with
      | none => []
      | some (.error _, _) => [.error ()]
      | some (.ok ev, rem) => .ok ev :: lexFuel fuel rem := rfl

theorem lexFuel_chain :
    ∀ (evs : List XmlEvent) (cs rest : Chars) (fuel : Nat),
      NextChain cs evs rest →
      lexFuel (evs.length + fuel) cs = evs.map Except.ok ++ lexFuel fuel rest := by
  intro evs
  induction evs with
  | nil =>
    intro cs rest fuel h
    cases h
    simp
  | cons ev evs ih =>
    intro cs rest fuel h
    obtain ⟨cs', hne, hch⟩ := h
    have harith : (ev :: evs).length + fuel = (evs.length + fuel) + 1 := by
      simp only [List.length_cons]
      omega
    rw [harith, lexFuel_succ, hne]
    dsimp only
    rw [ih cs' rest fuel hch]
    simp

theorem lex_of_chain {cs : Chars} {evs : List XmlEvent}
    (h : NextChain cs evs []) : lex cs = evs.map Except.ok := by
  have hlen := NextChain_length h
  simp only [List.length_nil, Nat.add_zero] at hlen
  unfold lex
  have harith : cs.length + 1 = evs.length + (cs.length - evs.length + 1) := by
    omega
  rw [harith, lexFuel_chain evs cs [] _ h]
  have h2 : lexFuel (cs.length - evs.length + 1) [] = [] := by
    rw [lexFuel_succ]
    rfl
  rw [h2, List.append_nil]
theorem fmtAttrsRest_render (ucd : Ucd) (i : Nat) :
    ∀ (attrs : List (Chars × Chars)),
      fmtAttrsRest ucd SerConfig.default false i attrs =
        renderAttrsSp ucd attrs := by
  intro attrs
  induction attrs with
  | nil => rfl
  | cons kv rest ih =>
    obtain ⟨k, v⟩ := kv
    simp only [fmtAttrsRest, renderAttrsSp, if_neg (by decide : ¬False), ih]
    simp [List.append_assoc]

theorem space_fmt_attrs (ucd : Ucd) (tag k v : Chars)
    (rest : List (Chars × Chars)) :
    ' ' :: fmt_attrs ucd SerConfig.default tag ⟨false, 0⟩ ((k, v) :: rest) =
      renderAttrsSp ucd ((k, v) :: rest) := by
  simp only [fmt_attrs, renderAttrsSp]
  rw [show ((⟨false, 0⟩ : SerState).withIndent SerConfig.default) =
    ⟨false, 0⟩ from rfl]
  simp only [Bool.false_and, fmtAttrsRest_render]

theorem printText_render (ucd : Ucd) (s : Chars) :
    printNode ucd SerConfig.default ⟨false, 0⟩ (.text s) = escText ucd s := by
  have hem : SerConfig.default.entity_mode = .standard := rfl
  have h5 : SerConfig.default.indent_text_nodes = false := rfl
  simp [printNode, escText, hem, h5]

theorem printCData_render (ucd : Ucd) (s : Chars) :
    printNode ucd SerConfig.default ⟨false, 0⟩ (.cdataSection s) =
      str "<![CDATA[" ++ s ++ str "]]>" := by
  have h5 : SerConfig.default.indent_text_nodes = false := rfl
  simp [printNode, h5]

theorem printComment_render (ucd : Ucd) (t : Chars) :
    printNode ucd SerConfig.default ⟨false, 0⟩ (.comment t) =
      str "<!--" ++ escText ucd t ++ str "-->" := by
  have hem : SerConfig.default.entity_mode = .standard := rfl
  simp [printNode, escText, hem]

theorem printDoctype_render (ucd : Ucd) (t : Chars) :
    printNode ucd SerConfig.default ⟨false, 0⟩ (.documentType t) =
      str "<!DOCTYPE " ++ t ++ ['>'] := by
  simp [printNode]

theorem printElement_empty_render (ucd : Ucd) (name : Chars)
    (attrs : List (Chars × Chars)) :
    printNode ucd SerConfig.default ⟨false, 0⟩ (.element name attrs []) =
      '<' :: (name ++ (renderAttrsSp ucd attrs ++ str " />")) := by
  cases attrs with
  | nil =>
    simp [printNode, pad, renderAttrsSp]
  | cons kv rest =>
    obtain ⟨k, v⟩ := kv
    have hsp := space_fmt_attrs ucd name k v rest
    simp only [printNode, List.isEmpty_nil, if_pos rfl, pad, List.replicate,
      Bool.false_and, Bool.false_eq_true, if_false, List.nil_append]
    rw [← hsp]
    simp [List.append_assoc]

theorem printElement_cons_render (ucd : Ucd) (name : Chars)
    (attrs : List (Chars × Chars)) (c : XNode) (cs : List XNode) :
    printNode ucd SerConfig.default ⟨false, 0⟩ (.element name attrs (c :: cs)) =
      '<' :: (name ++ (renderAttrsSp ucd attrs ++
        ('>' :: (printNodes ucd SerConfig.default ⟨false, 0⟩ (c :: cs) ++
          ('<' :: '/' :: (name ++ ['>'])))))) := by
  have hctx : (if (c :: cs).any isTextOrCData &&
      !SerConfig.default.indent_text_nodes then
      SerState.withoutPretty ⟨false, 0⟩
      else SerState.withIndent ⟨false, 0⟩ SerConfig.default) = ⟨false, 0⟩ := by
    split_ifs <;> rfl
  cases attrs with
  | nil =>
    simp only [printNode, List.isEmpty_cons, Bool.false_eq_true, if_false,
      pad, List.replicate, Bool.and_false, List.nil_append, renderAttrsSp,
      hctx]
    simp [str, List.append_assoc]
  | cons kv rest =>
    obtain ⟨k, v⟩ := kv
    have hsp := space_fmt_attrs ucd name k v rest
    simp only [printNode, List.isEmpty_cons, Bool.false_eq_true, if_false,
      pad, List.replicate, Bool.false_and, Bool.and_false, List.nil_append,
      hctx]
    rw [← hsp]
    simp [str, List.append_assoc]
theorem chain_text (ucd : Ucd) {s : Chars} (hs : s ≠ []) (rest : Chars)
    (hrest : startsOk rest) :
    NextChain (printNode ucd SerConfig.default ⟨false, 0⟩ (.text s) ++ rest)
      [.text (escText ucd s)] rest := by
  rw [printText_render]
  have hne : escText ucd s ≠ [] := process_entities_ne_nil ucd true true hs
  cases hesc : escText ucd s with
  | nil => exact absurd hesc hne
  | cons c cs =>
    have hmem : ∀ x ∈ escText ucd s, x ≠ '<' := fun x hx =>
      (process_entities_mem_safe ucd true true s x hx).1
    rw [hesc] at hmem
    have hc : c ≠ '<' := hmem c (List.mem_cons_self _ _)
    refine ⟨rest, ?_, rfl⟩
    obtain ⟨htk, hdr⟩ := takeWhile_append_exact (fun x => decide (x ≠ '<'))
      (c :: cs) (fun x hx => by simp [hmem x hx]) rest
      (by rcases hrest with rfl | ⟨r, rfl⟩
          · exact .inl rfl
          · exact .inr ⟨'<', r, rfl, by simp⟩)
    rw [List.cons_append] at htk hdr
    rw [List.cons_append]
    unfold nextEvent
    dsimp only
    rw [if_neg hc]
    rw [htk, hdr]

theorem isPrefixOf_append (m X : Chars) : m.isPrefixOf (m ++ X) = true := by
  rw [List.isPrefixOf_iff_prefix]
  exact List.prefix_append m X

theorem chain_cdata (ucd : Ucd) {s : Chars} (hs : ¬ hasInfix (str "]]>") s)
    (rest : Chars) :
    NextChain
      (printNode ucd SerConfig.default ⟨false, 0⟩ (.cdataSection s) ++ rest)
      [.cdata s] rest := by
  rw [printCData_render]
  refine ⟨rest, ?_, rfl⟩
  have hshape : str "<![CDATA[" ++ s ++ str "]]>" ++ rest =
      '<' :: (str "![CDATA[" ++ (s ++ (str "]]>" ++ rest))) := by
    simp [str, List.append_assoc]
  rw [hshape]
  unfold nextEvent
  dsimp only
  rw [if_pos rfl]
  unfold lexMarkup
  have e1 : (str "?").isPrefixOf
    (str "![CDATA[" ++ (s ++ (str "]]>" ++ rest))) = false := rfl
  have e2 : (str "!--").isPrefixOf
    (str "![CDATA[" ++ (s ++ (str "]]>" ++ rest))) = false := rfl
  have e3 : (str "![CDATA[").isPrefixOf
    (str "![CDATA[" ++ (s ++ (str "]]>" ++ rest))) = true := isPrefixOf_append _ _
  rw [e1, e2]
  simp only [Bool.false_eq_true, if_false]
  rw [e3, if_pos rfl]
  have e4 : (str "![CDATA[" ++ (s ++ (str "]]>" ++ rest))).drop 8 =
      s ++ (str "]]>" ++ rest) := rfl
  rw [e4, show s ++ (str "]]>" ++ rest) = s ++ str "]]>" ++ rest from
    (List.append_assoc s _ rest).symm]
  rw [splitSeq_cdata_end s hs rest]
theorem chain_comment (ucd : Ucd) (t : Chars) (rest : Chars) :
    NextChain
      (printNode ucd SerConfig.default ⟨false, 0⟩ (.comment t) ++ rest)
      [.comment (escText ucd t)] rest := by
  rw [printComment_render]
  refine ⟨rest, ?_, rfl⟩
  have hshape : str "<!--" ++ escText ucd t ++ str "-->" ++ rest =
      '<' :: (str "!--" ++ (escText ucd t ++ (str "-->" ++ rest))) := by
    simp [str, List.append_assoc]
  rw [hshape]
  unfold nextEvent
  dsimp only
  rw [if_pos rfl]
  unfold lexMarkup
  have e1 : (str "?").isPrefixOf
      (str "!--" ++ (escText ucd t ++ (str "-->" ++ rest))) = false := rfl
  have e2 : (str "!--").isPrefixOf
      (str "!--" ++ (escText ucd t ++ (str "-->" ++ rest))) = true :=
    isPrefixOf_append _ _
  rw [e1]
  simp only [Bool.false_eq_true, if_false]
  rw [e2, if_pos rfl]
  have e4 : (str "!--" ++ (escText ucd t ++ (str "-->" ++ rest))).drop 3 =
      escText ucd t ++ (str "-->" ++ rest) := rfl
  rw [e4, show escText ucd t ++ (str "-->" ++ rest) =
    escText ucd t ++ str "-->" ++ rest from
    (List.append_assoc _ _ rest).symm]
  have hgt : '>' ∉ escText ucd t := fun hmem =>
    (process_entities_mem_safe ucd true true t '>' hmem).2.1 rfl
  rw [splitSeq_dashes (escText ucd t) hgt rest]

theorem chain_doctype (ucd : Ucd) {t : Chars} (hgt : '>' ∉ t)
    (rest : Chars) :
    NextChain
      (printNode ucd SerConfig.default ⟨false, 0⟩ (.documentType t) ++ rest)
      [.doctype (' ' :: t)] rest := by
  rw [printDoctype_render]
  refine ⟨rest, ?_, rfl⟩
  have hshape : str "<!DOCTYPE " ++ t ++ ['>'] ++ rest =
      '<' :: (str "!DOCTYPE" ++ (' ' :: (t ++ '>' :: rest))) := by
    simp [str, List.append_assoc]
  rw [hshape]
  unfold nextEvent
  dsimp only
  rw [if_pos rfl]
  unfold lexMarkup
  have e1 : (str "?").isPrefixOf
      (str "!DOCTYPE" ++ (' ' :: (t ++ '>' :: rest))) = false := rfl
  have e2 : (str "!--").isPrefixOf
      (str "!DOCTYPE" ++ (' ' :: (t ++ '>' :: rest))) = false := rfl
  have e3 : (str "![CDATA[").isPrefixOf
      (str "!DOCTYPE" ++ (' ' :: (t ++ '>' :: rest))) = false := rfl
  have e4 : (str "!DOCTYPE").isPrefixOf
      (str "!DOCTYPE" ++ (' ' :: (t ++ '>' :: rest))) = true :=
    isPrefixOf_append _ _
  rw [e1, e2, e3]
  simp only [Bool.false_eq_true, if_false]
  rw [e4, if_pos rfl]
  have e5 : (str "!DOCTYPE" ++ (' ' :: (t ++ '>' :: rest))).drop 8 =
      ' ' :: (t ++ '>' :: rest) := rfl
  rw [e5, show ' ' :: (t ++ '>' :: rest) = (' ' :: t) ++ '>' :: rest from rfl]
  have hmem : '>' ∉ ' ' :: t := by
    intro hm
    rcases List.mem_cons.mp hm with h | h
    · cases h
    · exact hgt h
  rw [show str ">" = ['>'] from rfl, splitSeq_single '>' (' ' :: t) hmem rest]

theorem chain_endTag {name : Chars}
    (hn : isValidQName name = true) (rest : Chars) :
    NextChain ('<' :: '/' :: (name ++ ('>' :: rest))) [.endTag name] rest := by
  refine ⟨rest, ?_, rfl⟩
  rw [show ('<' :: '/' :: (name ++ ('>' :: rest))) =
    '<' :: (str "/" ++ (name ++ ('>' :: rest))) from rfl]
  unfold nextEvent
  dsimp only
  rw [if_pos rfl]
  unfold lexMarkup
  have e1 : (str "?").isPrefixOf (str "/" ++ (name ++ ('>' :: rest))) =
      false := rfl
  have e2 : (str "!--").isPrefixOf (str "/" ++ (name ++ ('>' :: rest))) =
      false := rfl
  have e3 : (str "![CDATA[").isPrefixOf (str "/" ++ (name ++ ('>' :: rest))) =
      false := rfl
  have e4 : (str "!DOCTYPE").isPrefixOf (str "/" ++ (name ++ ('>' :: rest))) =
      false := rfl
  have e5 : (str "/").isPrefixOf (str "/" ++ (name ++ ('>' :: rest))) =
      true := isPrefixOf_append _ _
  rw [e1, e2, e3, e4]
  simp only [Bool.false_eq_true, if_false]
  rw [e5, if_pos rfl]
  have e6 : (str "/" ++ (name ++ ('>' :: rest))).drop 1 =
      name ++ ('>' :: rest) := rfl
  have hmem : '>' ∉ name := by
    intro hm
    exact (isNameChar_excludes (validQName_chars hn '>' hm)).2.2.1 rfl
  rw [e6, show str ">" = ['>'] from rfl, splitSeq_single '>' name hmem rest]

theorem printNode_starts (ucd : Ucd) (n : XNode)
    (hnt : isTextNode n = false) (hpi : ∀ s, n ≠ .processingInstruction s) :
    ∃ r, printNode ucd SerConfig.default ⟨false, 0⟩ n = '<' :: r := by
  cases n with
  | element name attrs children =>
    cases children with
    | nil => exact ⟨_, printElement_empty_render ucd name attrs⟩
    | cons c cs => exact ⟨_, printElement_cons_render ucd name attrs c cs⟩
  | text s => cases hnt
  | cdataSection s =>
    refine ⟨str "![CDATA[" ++ s ++ str "]]>", ?_⟩
    rw [printCData_render]
    simp [str]
  | comment t =>
    refine ⟨str "!--" ++ escText ucd t ++ str "-->", ?_⟩
    rw [printComment_render]
    simp [str]
  | documentType t =>
    refine ⟨str "!DOCTYPE " ++ t ++ ['>'], ?_⟩
    rw [printDoctype_render]
    simp [str]
  | processingInstruction s => exact absurd rfl (hpi s)
theorem NodesOk_cons {n : XNode} {ns : List XNode} (h : NodesOk (n :: ns)) :
    NodeOk n ∧ NodesOk ns := by
  cases ns with
  | nil => exact ⟨h, trivial⟩
  | cons m ms => exact ⟨h.1, h.2.2⟩

theorem renderAttrsSp_head (ucd : Ucd) (attrs : List (Chars × Chars))
    (term : Chars) (hterm : ∃ r rs, term = r :: rs ∧ tagStop r = true) :
    ∃ r rs, renderAttrsSp ucd attrs ++ term = r :: rs ∧ tagStop r = true := by
  cases attrs with
  | nil => simpa [renderAttrsSp] using hterm
  | cons kv rest =>
    obtain ⟨k, v⟩ := kv
    exact ⟨' ', attrChunk ucd SerConfig.default k v ++
      (renderAttrsSp ucd rest ++ term),
      by simp [renderAttrsSp, List.append_assoc], by decide⟩

mutual

theorem lex_printNode (ucd : Ucd) :
    ∀ (n : XNode), NodeOk n → ∀ (rest : Chars),
      (isTextNode n = true → startsOk rest) →
      NextChain (printNode ucd SerConfig.default ⟨false, 0⟩ n ++ rest)
        (eventsOfNode ucd n) rest
  | .element name attrs children, h, rest, _ => by
    obtain ⟨hn, ⟨hkeys, _⟩, hch⟩ := h
    cases children with
    | nil =>
      rw [printElement_empty_render]
      show NextChain _ [.emptyTag name (escAttrs ucd attrs)] rest
      refine ⟨rest, ?_, rfl⟩
      have hshape :
          ('<' :: (name ++ (renderAttrsSp ucd attrs ++ str " />"))) ++ rest =
          '<' :: (name ++ (renderAttrsSp ucd attrs ++
            (' ' :: '/' :: '>' :: rest))) := by
        simp [str, List.append_assoc]
      rw [hshape,
        nextEvent_tag ucd hn hkeys (lexAttrs_tail_empty rest)
          (renderAttrsSp_head ucd attrs _ ⟨' ', _, rfl, by decide⟩)]
      rfl
    | cons c cs =>
      rw [printElement_cons_render]
      show NextChain _
        (.startTag name (escAttrs ucd attrs) ::
          (eventsOfNodes ucd (c :: cs) ++ [.endTag name])) rest
      refine ⟨printNodes ucd SerConfig.default ⟨false, 0⟩ (c :: cs) ++
        ('<' :: '/' :: (name ++ ('>' :: rest))), ?_, ?_⟩
      · have hshape :
            ('<' :: (name ++ (renderAttrsSp ucd attrs ++
              ('>' :: (printNodes ucd SerConfig.default ⟨false, 0⟩ (c :: cs) ++
                ('<' :: '/' :: (name ++ ['>']))))))) ++ rest =
            '<' :: (name ++ (renderAttrsSp ucd attrs ++
              ('>' :: (printNodes ucd SerConfig.default ⟨false, 0⟩ (c :: cs) ++
                ('<' :: '/' :: (name ++ ('>' :: rest))))))) := by
          simp [List.append_assoc]
        rw [hshape,
          nextEvent_tag ucd hn hkeys (lexAttrs_tail_open _)
            (renderAttrsSp_head ucd attrs _ ⟨'>', _, rfl, by decide⟩)]
        rfl
      · exact NextChain.append
          (lex_printNodes ucd (c :: cs) hch _ (.inr ⟨_, rfl⟩))
          (chain_endTag hn rest)
  | .text s, h, rest, hrest => by
    have hs : s ≠ [] := by
      intro hc
      subst hc
      exact h rfl
    exact chain_text ucd hs rest (hrest rfl)
  | .cdataSection s, h, rest, _ => chain_cdata ucd h rest
  | .comment t, _, rest, _ => chain_comment ucd t rest
  | .documentType _, h, _, _ => h.elim
  | .processingInstruction _, h, _, _ => h.elim

theorem lex_printNodes (ucd : Ucd) :
    ∀ (ns : List XNode), NodesOk ns → ∀ (rest : Chars), startsOk rest →
      NextChain (printNodes ucd SerConfig.default ⟨false, 0⟩ ns ++ rest)
        (eventsOfNodes ucd ns) rest
  | [], _, rest, _ => by
    show NextChain ([] ++ rest) [] rest
    show ([] : Chars) ++ rest = rest
    exact List.nil_append rest
  | n :: ns, h, rest, hrest => by
    obtain ⟨h1, h2⟩ := NodesOk_cons h
    have hstarts : isTextNode n = true →
        startsOk (printNodes ucd SerConfig.default ⟨false, 0⟩ ns ++ rest) := by
      intro ht
      cases ns with
      | nil =>
        show startsOk (([] : Chars) ++ rest)
        rw [List.nil_append]
        exact hrest
      | cons m ms =>
        have hadj : ¬(isTextNode n = true ∧ isTextNode m = true) := h.2.1
        have hmok : NodeOk m := (NodesOk_cons h2).1
        have hmt : isTextNode m = false := by
          cases hm : isTextNode m with
          | false => rfl
          | true => exact absurd ⟨ht, hm⟩ hadj
        have hpi : ∀ s, m ≠ .processingInstruction s := by
          intro s he
          rw [he] at hmok
          exact hmok.elim
        obtain ⟨r, hr⟩ := printNode_starts ucd m hmt hpi
        refine .inr ⟨r ++ (printNodes ucd SerConfig.default ⟨false, 0⟩ ms ++
          rest), ?_⟩
        show printNode ucd SerConfig.default ⟨false, 0⟩ m ++
          printNodes ucd SerConfig.default ⟨false, 0⟩ ms ++ rest = _
        rw [hr]
        simp [List.append_assoc]
    show NextChain
      ((printNode ucd SerConfig.default ⟨false, 0⟩ n ++
        printNodes ucd SerConfig.default ⟨false, 0⟩ ns) ++ rest)
      (eventsOfNode ucd n ++ eventsOfNodes ucd ns) rest
    rw [List.append_assoc]
    exact NextChain.append (lex_printNode ucd n h1 _ hstarts)
      (lex_printNodes ucd ns h2 rest hrest)

end
theorem declField_concat (dl : XDecl) :
    declField (str "version") dl.version ++ declField (str "encoding") dl.encoding ++
      declField (str "standalone") dl.standalone =
      renderDeclFields (declFieldsList dl) := by
  cases hv : dl.version <;> cases he : dl.encoding <;>
    cases hs : dl.standalone <;>
    simp [declField, declFieldsList, renderDeclFields, hv, he, hs, str, List.append_assoc]

theorem renderDeclFields_length_ge :
    ∀ (fields : List (Chars × Chars)),
      fields.length ≤ (renderDeclFields fields).length := by
  intro fields
  induction fields with
  | nil => simp [renderDeclFields]
  | cons kv rest ih =>
    obtain ⟨k, v⟩ := kv
    simp only [renderDeclFields, List.length_cons, List.length_append]
    omega

theorem renderDeclFields_no_qm :
    ∀ (fields : List (Chars × Chars)),
      (∀ kv ∈ fields, (∀ c ∈ kv.1, c ≠ '?') ∧ '?' ∉ kv.2) →
      '?' ∉ renderDeclFields fields := by
  intro fields
  induction fields with
  | nil => intro _ h; cases h
  | cons kv rest ih =>
    obtain ⟨k, v⟩ := kv
    intro hf hm
    have hh := hf (k, v) (List.mem_cons_self _ _)
    simp only [renderDeclFields, List.mem_cons, List.mem_append] at hm
    rcases hm with h | h
    · cases h
    rcases h with h | h
    · exact hh.1 '?' h rfl
    rcases h with h | h
    · cases h
    rcases h with h | h
    · cases h
    rcases h with h | h
    · exact hh.2 h
    rcases h with h | h
    · cases h
    · exact ih (fun kv hkv => hf kv (List.mem_cons_of_mem _ hkv)) h

theorem declAttrs_render :
    ∀ (fields : List (Chars × Chars)) (fuel : Nat), fields.length < fuel →
      (∀ kv ∈ fields, kv.1 ≠ [] ∧
        (∀ c ∈ kv.1, attrKeyStop c = false ∧ isTagSpace c = false) ∧
        '"' ∉ kv.2) →
      declAttrs fuel (renderDeclFields fields) = some fields := by
  intro fields
  induction fields with
  | nil =>
    intro fuel hfuel _
    cases fuel with
    | zero => omega
    | succ fuel => rfl
  | cons kv rest ih =>
    obtain ⟨k, v⟩ := kv
    intro fuel hfuel hf
    cases fuel with
    | zero => omega
    | succ fuel =>
    have hh := hf (k, v) (List.mem_cons_self _ _)
    obtain ⟨hkne, hkchars, hvq⟩ := hh
    cases hk : k with
    | nil => exact absurd hk hkne
    | cons k0 ks =>
    subst hk
    unfold declAttrs
    dsimp only
    rw [show renderDeclFields ((k0 :: ks, v) :: rest) =
      ' ' :: ((k0 :: ks) ++ ('=' :: '"' :: (v ++ ('"' :: renderDeclFields rest))))
      from rfl]
    rw [List.dropWhile_cons, if_pos (by decide)]
    rw [List.cons_append,
      dropWhile_cons_false (hkchars k0 (List.mem_cons_self _ _)).2]
    obtain ⟨htk, hdr⟩ := takeWhile_append_exact (fun x => !attrKeyStop x)
      (k0 :: ks) (fun c hc => by simp [(hkchars c hc).1])
      ('=' :: '"' :: (v ++ ('"' :: renderDeclFields rest)))
      (.inr ⟨'=', _, rfl, by decide⟩)
    rw [List.cons_append] at htk hdr
    dsimp only
    rw [htk]
    simp only [List.isEmpty_cons, Bool.false_eq_true, if_false]
    rw [hdr]
    dsimp only
    rw [if_pos ⟨rfl, rfl⟩]
    obtain ⟨hvt, hvd⟩ := takeWhile_append_exact (fun x => decide (x ≠ '"')) v
      (fun c hc => by simp; intro hcq; exact hvq (hcq ▸ hc))
      ('"' :: renderDeclFields rest) (.inr ⟨'"', _, rfl, by simp⟩)
    rw [hvt, hvd]
    dsimp only
    rw [if_pos rfl]
    rw [ih fuel (by simp at hfuel ⊢; omega)
      (fun kv hkv => hf kv (List.mem_cons_of_mem _ hkv))]
    rfl
theorem declLookups (dl : XDecl) :
    lookupAttr (declFieldsList dl) (str "version") = dl.version ∧
      lookupAttr (declFieldsList dl) (str "encoding") = dl.encoding ∧
      lookupAttr (declFieldsList dl) (str "standalone") = dl.standalone := by
  cases hv : dl.version <;> cases he : dl.encoding <;>
    cases hs : dl.standalone <;>
    simp [declFieldsList, lookupAttr, hv, he, hs, str]

theorem mem_declFieldsList {dl : XDecl} {kv : Chars × Chars}
    (hkv : kv ∈ declFieldsList dl) :
    (kv.1 = str "version" ∧ dl.version = some kv.2) ∨
      (kv.1 = str "encoding" ∧ dl.encoding = some kv.2) ∨
      (kv.1 = str "standalone" ∧ dl.standalone = some kv.2) := by
  unfold declFieldsList at hkv
  rcases List.mem_append.mp hkv with h | h
  rcases List.mem_append.mp h with h | h
  · left
    cases hv : dl.version with
    | none => rw [hv] at h; cases h
    | some v =>
      rw [hv] at h
      have := List.mem_singleton.mp h
      subst this
      exact ⟨rfl, rfl⟩
  · right; left
    cases he : dl.encoding with
    | none => rw [he] at h; cases h
    | some v =>
      rw [he] at h
      have := List.mem_singleton.mp h
      subst this
      exact ⟨rfl, rfl⟩
  · right; right
    cases hs : dl.standalone with
    | none => rw [hs] at h; cases h
    | some v =>
      rw [hs] at h
      have := List.mem_singleton.mp h
      subst this
      exact ⟨rfl, rfl⟩

theorem declFields_chars (dl : XDecl) (h : DeclOk (some dl)) :
    ∀ kv ∈ declFieldsList dl, kv.1 ≠ [] ∧
      (∀ c ∈ kv.1, attrKeyStop c = false ∧ isTagSpace c = false ∧ c ≠ '?') ∧
      '"' ∉ kv.2 ∧ '?' ∉ kv.2 := by
  obtain ⟨h1, h2, h3⟩ := h
  intro kv hkv
  rcases mem_declFieldsList hkv with ⟨hk, hv⟩ | ⟨hk, hv⟩ | ⟨hk, hv⟩
  · obtain ⟨q1, q2⟩ := h1 _ hv
    exact ⟨by rw [hk]; simp [str], by rw [hk]; decide, q1, q2⟩
  · obtain ⟨q1, q2⟩ := h2 _ hv
    exact ⟨by rw [hk]; simp [str], by rw [hk]; decide, q1, q2⟩
  · obtain ⟨q1, q2⟩ := h3 _ hv
    exact ⟨by rw [hk]; simp [str], by rw [hk]; decide, q1, q2⟩
theorem chain_decl (dl : XDecl) (h : DeclOk (some dl)) (rest : Chars) :
    NextChain (printDecl dl ⟨false, 0⟩ ++ rest)
      [.decl dl.version dl.encoding dl.standalone] rest := by
  have hchars := declFields_chars dl h
  have hdecl : declEventOf
      ((str "xml" ++ renderDeclFields (declFieldsList dl)).drop 3) =
      .decl dl.version dl.encoding dl.standalone := by
    have e3 : (str "xml" ++ renderDeclFields (declFieldsList dl)).drop 3 =
        renderDeclFields (declFieldsList dl) := rfl
    rw [e3]
    unfold declEventOf
    have hlen : (declFieldsList dl).length <
        (renderDeclFields (declFieldsList dl)).length + 1 := by
      have := renderDeclFields_length_ge (declFieldsList dl)
      omega
    rw [declAttrs_render _ _ hlen (fun kv hkv =>
      ⟨(hchars kv hkv).1,
        fun c hc => ⟨((hchars kv hkv).2.1 c hc).1,
          ((hchars kv hkv).2.1 c hc).2.1⟩,
        (hchars kv hkv).2.2.1⟩)]
    obtain ⟨l1, l2, l3⟩ := declLookups dl
    dsimp only
    rw [l1, l2, l3]
  refine ⟨rest, ?_, rfl⟩
  have hF := declField_concat dl
  have hshape : printDecl dl ⟨false, 0⟩ ++ rest =
      '<' :: (str "?" ++ ('x' :: 'm' :: 'l' ::
        (renderDeclFields (declFieldsList dl) ++ ('?' :: '>' :: rest)))) := by
    unfold printDecl
    rw [← hF]
    simp [str, List.append_assoc]
  rw [hshape]
  unfold nextEvent
  dsimp only
  rw [if_pos rfl]
  unfold lexMarkup
  have e1 : (str "?").isPrefixOf (str "?" ++ ('x' :: 'm' :: 'l' ::
      (renderDeclFields (declFieldsList dl) ++ ('?' :: '>' :: rest)))) =
      true := isPrefixOf_append _ _
  rw [e1, if_pos rfl]
  have e2 : (str "?" ++ ('x' :: 'm' :: 'l' ::
      (renderDeclFields (declFieldsList dl) ++ ('?' :: '>' :: rest)))).drop 1 =
      'x' :: 'm' :: 'l' ::
        (renderDeclFields (declFieldsList dl) ++ ('?' :: '>' :: rest)) := rfl
  rw [e2]
  have hq : '?' ∉ str "xml" ++ renderDeclFields (declFieldsList dl) := by
    intro hm
    rcases List.mem_append.mp hm with hm | hm
    · revert hm
      decide
    · exact renderDeclFields_no_qm _ (fun kv hkv =>
        ⟨fun c hc => ((hchars kv hkv).2.1 c hc).2.2,
          (hchars kv hkv).2.2.2⟩) hm
  have hsp := splitSeq_questiongt
    (str "xml" ++ renderDeclFields (declFieldsList dl)) hq rest
  have hXs : 'x' :: 'm' :: 'l' ::
      (renderDeclFields (declFieldsList dl) ++ ('?' :: '>' :: rest)) =
      str "xml" ++ renderDeclFields (declFieldsList dl) ++ str "?>" ++ rest := by
    simp [str, List.append_assoc]
  rw [hXs, hsp]
  dsimp only
  have hcond : str "xml" ++ renderDeclFields (declFieldsList dl) = str "xml" ∨
      (str "xml ").isPrefixOf
        (str "xml" ++ renderDeclFields (declFieldsList dl)) = true := by
    cases hfl : declFieldsList dl with
    | nil =>
      left
      simp [renderDeclFields]
    | cons kv fs =>
      right
      obtain ⟨k, v⟩ := kv
      rw [show str "xml" ++ renderDeclFields ((k, v) :: fs) =
        str "xml " ++ (k ++ ('=' :: '"' :: (v ++ ('"' :: renderDeclFields fs))))
        from by simp [str, renderDeclFields]]
      exact isPrefixOf_append _ _
  rw [if_pos hcond, hdecl]
theorem NodesChainOk_cons {P : XNode → Prop} {n : XNode} {ns : List XNode}
    (h : NodesChainOk P (n :: ns)) : P n ∧ NodesChainOk P ns := by
  cases ns with
  | nil => exact ⟨h, trivial⟩
  | cons m ms => exact ⟨h.1, h.2.2⟩

theorem chain_beforeNode (ucd : Ucd) (n : XNode) (h : BeforeNodeOk n) :
    ∀ (rest : Chars), (isTextNode n = true → startsOk rest) →
      NextChain (printNode ucd SerConfig.default ⟨false, 0⟩ n ++ rest)
        (eventsOfNode ucd n) rest := by
  intro rest hrest
  cases n with
  | text s =>
    have hs : s ≠ [] := by
      intro hc
      subst hc
      exact h rfl
    exact chain_text ucd hs rest (hrest rfl)
  | cdataSection s => exact chain_cdata ucd h rest
  | comment t => exact chain_comment ucd t rest
  | documentType s => exact chain_doctype ucd h.2.1 rest
  | element name attrs children => exact h.elim
  | processingInstruction s => exact h.elim

theorem chain_afterNode (ucd : Ucd) (n : XNode) (h : AfterNodeOk n) :
    ∀ (rest : Chars), (isTextNode n = true → startsOk rest) →
      NextChain (printNode ucd SerConfig.default ⟨false, 0⟩ n ++ rest)
        (eventsOfNode ucd n) rest := by
  intro rest hrest
  cases n with
  | text s =>
    have hs : s ≠ [] := by
      intro hc
      subst hc
      exact h rfl
    exact chain_text ucd hs rest (hrest rfl)
  | cdataSection s => exact chain_cdata ucd h rest
  | comment t => exact chain_comment ucd t rest
  | documentType s => exact h.elim
  | element name attrs children => exact h.elim
  | processingInstruction s => exact h.elim

theorem chain_nodesP (ucd : Ucd) (P : XNode → Prop)
    (hP : ∀ n, P n → ∀ (rest : Chars), (isTextNode n = true → startsOk rest) →
      NextChain (printNode ucd SerConfig.default ⟨false, 0⟩ n ++ rest)
        (eventsOfNode ucd n) rest)
    (hPi : ∀ s, ¬ P (.processingInstruction s)) :
    ∀ (ns : List XNode), NodesChainOk P ns → ∀ (rest : Chars), startsOk rest →
      NextChain (printNodes ucd SerConfig.default ⟨false, 0⟩ ns ++ rest)
        (eventsOfNodes ucd ns) rest := by
  intro ns
  induction ns with
  | nil =>
    intro _ rest _
    show NextChain ([] ++ rest) [] rest
    show ([] : Chars) ++ rest = rest
    exact List.nil_append rest
  | cons n ns ih =>
    intro h rest hrest
    obtain ⟨h1, h2⟩ := NodesChainOk_cons h
    have hstarts : isTextNode n = true →
        startsOk (printNodes ucd SerConfig.default ⟨false, 0⟩ ns ++ rest) := by
      intro ht
      cases ns with
      | nil =>
        show startsOk (([] : Chars) ++ rest)
        rw [List.nil_append]
        exact hrest
      | cons m ms =>
        have hadj : ¬(isTextNode n = true ∧ isTextNode m = true) := h.2.1
        have hmok : P m := (NodesChainOk_cons h2).1
        have hmt : isTextNode m = false := by
          cases hm : isTextNode m with
          | false => rfl
          | true => exact absurd ⟨ht, hm⟩ hadj
        have hpi : ∀ s, m ≠ .processingInstruction s := by
          intro s he
          rw [he] at hmok
          exact hPi s hmok
        obtain ⟨r, hr⟩ := printNode_starts ucd m hmt hpi
        refine .inr ⟨r ++ (printNodes ucd SerConfig.default ⟨false, 0⟩ ms ++
          rest), ?_⟩
        show printNode ucd SerConfig.default ⟨false, 0⟩ m ++
          printNodes ucd SerConfig.default ⟨false, 0⟩ ms ++ rest = _
        rw [hr]
        simp [List.append_assoc]
    show NextChain
      ((printNode ucd SerConfig.default ⟨false, 0⟩ n ++
        printNodes ucd SerConfig.default ⟨false, 0⟩ ns) ++ rest)
      (eventsOfNode ucd n ++ eventsOfNodes ucd ns) rest
    rw [List.append_assoc]
    exact NextChain.append (hP n h1 _ hstarts) (ih h2 rest hrest)

theorem chain_doc (ucd : Ucd) (d : XDoc) (h : Loadable d) :
    NextChain (to_string ucd d) (eventsOfDoc ucd d) [] := by
  obtain ⟨hdecl, hbefore, hname, hattrs, hchildren, hafter⟩ := h
  have hroot : NextChain
      (printNode ucd SerConfig.default ⟨false, 0⟩
        (.element d.rootName d.rootAttrs d.rootChildren) ++
        (printNodes ucd SerConfig.default ⟨false, 0⟩ d.after ++ []))
      (eventsOfNode ucd (.element d.rootName d.rootAttrs d.rootChildren))
      (printNodes ucd SerConfig.default ⟨false, 0⟩ d.after ++ []) :=
    lex_printNode ucd (.element d.rootName d.rootAttrs d.rootChildren)
      ⟨hname, hattrs, hchildren⟩ _ (by intro hcontra; cases hcontra)
  have hafterChain : NextChain
      (printNodes ucd SerConfig.default ⟨false, 0⟩ d.after ++ [])
      (eventsOfNodes ucd d.after) [] :=
    chain_nodesP ucd AfterNodeOk (chain_afterNode ucd)
      (fun _ hc => hc.elim) d.after hafter [] (.inl rfl)
  have hrootstarts : startsOk
      (printNode ucd SerConfig.default ⟨false, 0⟩
        (.element d.rootName d.rootAttrs d.rootChildren) ++
        (printNodes ucd SerConfig.default ⟨false, 0⟩ d.after ++ [])) := by
    obtain ⟨r, hr⟩ := printNode_starts ucd
      (.element d.rootName d.rootAttrs d.rootChildren) rfl (fun _ hc => by cases hc)
    rw [hr]
    exact .inr ⟨_, rfl⟩
  have hbeforeChain : NextChain
      (printNodes ucd SerConfig.default ⟨false, 0⟩ d.before ++
        (printNode ucd SerConfig.default ⟨false, 0⟩
          (.element d.rootName d.rootAttrs d.rootChildren) ++
          (printNodes ucd SerConfig.default ⟨false, 0⟩ d.after ++ [])))
      (eventsOfNodes ucd d.before)
      (printNode ucd SerConfig.default ⟨false, 0⟩
        (.element d.rootName d.rootAttrs d.rootChildren) ++
        (printNodes ucd SerConfig.default ⟨false, 0⟩ d.after ++ [])) :=
    chain_nodesP ucd BeforeNodeOk (chain_beforeNode ucd)
      (fun _ hc => hc.elim) d.before hbefore _ hrootstarts
  have hmain := NextChain.append hbeforeChain
    (NextChain.append hroot hafterChain)
  have hdeclChain : NextChain (to_string ucd d)
      ((match d.decl with
        | none => []
        | some dl => [XmlEvent.decl dl.version dl.encoding dl.standalone]) ++
        (eventsOfNodes ucd d.before ++
          (eventsOfNode ucd (.element d.rootName d.rootAttrs d.rootChildren) ++
            eventsOfNodes ucd d.after))) [] := by
    cases hd : d.decl with
    | none =>
      have hts : to_string ucd d =
          printNodes ucd SerConfig.default ⟨false, 0⟩ d.before ++
            (printNode ucd SerConfig.default ⟨false, 0⟩
              (.element d.rootName d.rootAttrs d.rootChildren) ++
              (printNodes ucd SerConfig.default ⟨false, 0⟩ d.after ++ [])) := by
        unfold to_string printDoc printElement
        rw [hd]
        simp [List.append_assoc, show SerConfig.default.is_pretty = false
          from rfl]
      rw [hts]
      exact hmain
    | some dl =>
      have hts : to_string ucd d =
          printDecl dl ⟨false, 0⟩ ++
            (printNodes ucd SerConfig.default ⟨false, 0⟩ d.before ++
              (printNode ucd SerConfig.default ⟨false, 0⟩
                (.element d.rootName d.rootAttrs d.rootChildren) ++
                (printNodes ucd SerConfig.default ⟨false, 0⟩ d.after ++ []))) := by
        unfold to_string printDoc printElement
        rw [hd]
        simp [List.append_assoc, show SerConfig.default.is_pretty = false
          from rfl]
      rw [hts]
      have hdok : DeclOk (some dl) := by
        rw [← hd]
        exact hdecl
      exact NextChain.append (chain_decl dl hdok _) hmain
  exact hdeclChain

theorem lex_to_string (ucd : Ucd) (d : XDoc) (h : Loadable d) :
    lex (to_string ucd d) = (eventsOfDoc ucd d).map Except.ok :=
  lex_of_chain (chain_doc ucd d h)
theorem attrsInsert_fresh {k : Chars} :
    ∀ {acc : List (Chars × Chars)}, k ∉ acc.map Prod.fst → ∀ (v : Chars),
      attrsInsert acc k v = acc ++ [(k, v)] := by
  intro acc
  induction acc with
  | nil => intro _ v; rfl
  | cons kv rest ih =>
    intro hk v
    obtain ⟨k', v'⟩ := kv
    simp only [List.map_cons, List.mem_cons, not_or] at hk
    unfold attrsInsert
    rw [if_neg (fun hc => hk.1 hc.symm), ih hk.2 v]
    rfl

theorem unescape_escAttrVal (ucd : Ucd) (v : Chars) :
    unescapeChars (escAttrVal ucd v) = some v :=
  unescape_process_entities ucd false false v

theorem unescape_escText (ucd : Ucd) (s : Chars) :
    unescapeChars (escText ucd s) = some s :=
  unescape_process_entities ucd true true s

theorem buildAttrs_rebuild (ucd : Ucd) :
    ∀ (attrs acc : List (Chars × Chars)),
      (∀ kv ∈ attrs, isValidQName kv.1 = true) →
      (attrs.map Prod.fst).Nodup →
      (∀ kv ∈ attrs, kv.1 ∉ acc.map Prod.fst) →
      buildAttrs acc (escAttrs ucd attrs) = .ok (acc ++ attrs) := by
  intro attrs
  induction attrs with
  | nil =>
    intro acc _ _ _
    simp [escAttrs, buildAttrs]
  | cons kv rest ih =>
    intro acc hq hnd hfresh
    obtain ⟨k, v⟩ := kv
    show buildAttrs acc ((k, escAttrVal ucd v) :: escAttrs ucd rest) = _
    unfold buildAttrs
    rw [unescape_escAttrVal]
    dsimp only
    rw [if_pos (hq (k, v) (List.mem_cons_self _ _)),
      attrsInsert_fresh (hfresh (k, v) (List.mem_cons_self _ _)) v]
    simp only [List.map_cons, List.nodup_cons] at hnd
    rw [ih (acc ++ [(k, v)]) (fun kv hkv => hq kv (List.mem_cons_of_mem _ hkv))
      hnd.2 ?_]
    · simp
    · intro kv hkv
      simp only [List.map_append, List.mem_append, List.map_cons,
        List.map_nil, List.mem_singleton, not_or]
      refine ⟨hfresh kv (List.mem_cons_of_mem _ hkv), ?_⟩
      intro hc
      exact hnd.1 (hc ▸ List.mem_map_of_mem Prod.fst hkv)

theorem buildRootAttrs_rebuild (ucd : Ucd) :
    ∀ (attrs acc : List (Chars × Chars)),
      (∀ kv ∈ attrs, isValidQName kv.1 = true) →
      (attrs.map Prod.fst).Nodup →
      (∀ kv ∈ attrs, kv.1 ∉ acc.map Prod.fst) →
      buildRootAttrs acc (escAttrs ucd attrs) = some (acc ++ attrs) := by
  intro attrs
  induction attrs with
  | nil =>
    intro acc _ _ _
    simp [escAttrs, buildRootAttrs]
  | cons kv rest ih =>
    intro acc hq hnd hfresh
    obtain ⟨k, v⟩ := kv
    show buildRootAttrs acc ((k, escAttrVal ucd v) :: escAttrs ucd rest) = _
    unfold buildRootAttrs
    rw [unescape_escAttrVal]
    dsimp only
    rw [if_pos (hq (k, v) (List.mem_cons_self _ _)),
      attrsInsert_fresh (hfresh (k, v) (List.mem_cons_self _ _)) v]
    simp only [List.map_cons, List.nodup_cons] at hnd
    rw [ih (acc ++ [(k, v)]) (fun kv hkv => hq kv (List.mem_cons_of_mem _ hkv))
      hnd.2 ?_]
    · simp
    · intro kv hkv
      simp only [List.map_append, List.mem_append, List.map_cons,
        List.map_nil, List.mem_singleton, not_or]
      refine ⟨hfresh kv (List.mem_cons_of_mem _ hkv), ?_⟩
      intro hc
      exact hnd.1 (hc ▸ List.mem_map_of_mem Prod.fst hkv)

theorem rustTrim_cons_space (s : Chars) : rustTrim (' ' :: s) = rustTrim s := by
  unfold rustTrim
  rw [List.dropWhile_cons, if_pos (by decide)]
theorem escText_ne_nil (ucd : Ucd) {s : Chars} (hs : s ≠ []) :
    escText ucd s ≠ [] := process_entities_ne_nil ucd true true hs

theorem phase1_step_text (ucd : Ucd) (dc : Option XDecl) (bf : List XNode)
    (rest : List (Except Unit XmlEvent)) {s : Chars} (hs : rustTrim s ≠ []) :
    phase1 dc bf (.ok (.text (escText ucd s)) :: rest) =
      phase1 dc (bf ++ [.text s]) rest := by
  have hne : escText ucd s ≠ [] := escText_ne_nil ucd (by
    intro hc
    subst hc
    exact hs rfl)
  conv_lhs => unfold phase1
  dsimp only
  cases hesc : escText ucd s with
  | nil => exact absurd hesc hne
  | cons c cs =>
    simp only [List.isEmpty_cons, Bool.false_eq_true, if_false]
    rw [← hesc, unescape_escText]
    dsimp only
    rw [if_neg hs]

theorem phase1_step_comment (ucd : Ucd) (dc : Option XDecl) (bf : List XNode)
    (rest : List (Except Unit XmlEvent)) (t : Chars) :
    phase1 dc bf (.ok (.comment (escText ucd t)) :: rest) =
      phase1 dc (bf ++ [.comment t]) rest := by
  conv_lhs => unfold phase1
  dsimp only
  rw [unescape_escText]

theorem phase1_step_cdata (dc : Option XDecl) (bf : List XNode)
    (rest : List (Except Unit XmlEvent)) (s : Chars) :
    phase1 dc bf (.ok (.cdata s) :: rest) =
      phase1 dc (bf ++ [.cdataSection s]) rest := rfl

theorem phase1_step_doctype (dc : Option XDecl) (bf : List XNode)
    (rest : List (Except Unit XmlEvent)) {s : Chars} (hamp : '&' ∉ s)
    (htrim : rustTrim s = s) :
    phase1 dc bf (.ok (.doctype (' ' :: s)) :: rest) =
      phase1 dc (bf ++ [.documentType s]) rest := by
  conv_lhs => unfold phase1
  dsimp only
  rw [unescapeChars_no_amp (by
    intro hm
    rcases List.mem_cons.mp hm with hc | hc
    · cases hc
    · exact hamp hc)]
  dsimp only
  rw [rustTrim_cons_space, htrim]

theorem phase1_step_decl (dc : Option XDecl) (bf : List XNode)
    (rest : List (Except Unit XmlEvent)) (v e s : Option Chars) :
    phase1 dc bf (.ok (.decl v e s) :: rest) = phase1 (some ⟨v, e, s⟩) bf rest :=
  rfl

theorem phase1_before (ucd : Ucd) :
    ∀ (ns : List XNode), NodesChainOk BeforeNodeOk ns →
      ∀ (dc : Option XDecl) (bf : List XNode)
        (rest : List (Except Unit XmlEvent)),
      phase1 dc bf ((eventsOfNodes ucd ns).map Except.ok ++ rest) =
        phase1 dc (bf ++ ns) rest := by
  intro ns
  induction ns with
  | nil =>
    intro _ dc bf rest
    simp [eventsOfNodes]
  | cons n ns ih =>
    intro h dc bf rest
    obtain ⟨h1, h2⟩ := NodesChainOk_cons h
    have hstep : ∀ (bf' : List XNode),
        phase1 dc bf' ((eventsOfNode ucd n).map Except.ok ++
          ((eventsOfNodes ucd ns).map Except.ok ++ rest)) =
        phase1 dc (bf' ++ [n]) ((eventsOfNodes ucd ns).map Except.ok ++ rest) := by
      intro bf'
      cases n with
      | text s => exact phase1_step_text ucd dc bf' _ h1
      | cdataSection s => exact phase1_step_cdata dc bf' _ s
      | comment t => exact phase1_step_comment ucd dc bf' _ t
      | documentType s => exact phase1_step_doctype dc bf' _ h1.1 h1.2.2
      | element name attrs children => exact h1.elim
      | processingInstruction s => exact h1.elim
    show phase1 dc bf ((eventsOfNode ucd n ++ eventsOfNodes ucd ns).map
      Except.ok ++ rest) = _
    rw [List.map_append, List.append_assoc, hstep bf, ih h2]
    simp
theorem phase2_step_text (ucd : Ucd) (dc : Option XDecl) (bf : List XNode)
    (rn : Chars) (ra : List (Chars × Chars)) (f : Frame) (fs : List Frame)
    (rc af : List XNode) (rest : List (Except Unit XmlEvent)) {s : Chars}
    (hs : rustTrim s ≠ []) :
    phase2 ⟨dc, bf, rn, ra, f :: fs, rc, af⟩
        (.ok (.text (escText ucd s)) :: rest) =
      phase2 ⟨dc, bf, rn, ra, ⟨f.name, f.attrs, f.children ++ [.text s]⟩ :: fs,
        rc, af⟩ rest := by
  conv_lhs => unfold phase2
  unfold p2step
  dsimp only
  rw [unescape_escText]
  dsimp only
  rw [if_neg hs]

theorem phase2_step_text_after (ucd : Ucd) (dc : Option XDecl)
    (bf : List XNode) (rn : Chars) (ra : List (Chars × Chars))
    (rc af : List XNode) (rest : List (Except Unit XmlEvent)) {s : Chars}
    (hs : rustTrim s ≠ []) :
    phase2 ⟨dc, bf, rn, ra, [], rc, af⟩
        (.ok (.text (escText ucd s)) :: rest) =
      phase2 ⟨dc, bf, rn, ra, [], rc, af ++ [.text s]⟩ rest := by
  conv_lhs => unfold phase2
  unfold p2step
  dsimp only
  rw [unescape_escText]
  dsimp only
  rw [if_neg hs]

theorem phase2_step_cdata (dc : Option XDecl) (bf : List XNode) (rn : Chars)
    (ra : List (Chars × Chars)) (f : Frame) (fs : List Frame)
    (rc af : List XNode) (rest : List (Except Unit XmlEvent)) (s : Chars) :
    phase2 ⟨dc, bf, rn, ra, f :: fs, rc, af⟩ (.ok (.cdata s) :: rest) =
      phase2 ⟨dc, bf, rn, ra,
        ⟨f.name, f.attrs, f.children ++ [.cdataSection s]⟩ :: fs, rc, af⟩
        rest := rfl

theorem phase2_step_cdata_after (dc : Option XDecl) (bf : List XNode)
    (rn : Chars) (ra : List (Chars × Chars)) (rc af : List XNode)
    (rest : List (Except Unit XmlEvent)) (s : Chars) :
    phase2 ⟨dc, bf, rn, ra, [], rc, af⟩ (.ok (.cdata s) :: rest) =
      phase2 ⟨dc, bf, rn, ra, [], rc, af ++ [.cdataSection s]⟩ rest := rfl

theorem phase2_step_comment (ucd : Ucd) (dc : Option XDecl) (bf : List XNode)
    (rn : Chars) (ra : List (Chars × Chars)) (f : Frame) (fs : List Frame)
    (rc af : List XNode) (rest : List (Except Unit XmlEvent)) (t : Chars) :
    phase2 ⟨dc, bf, rn, ra, f :: fs, rc, af⟩
        (.ok (.comment (escText ucd t)) :: rest) =
      phase2 ⟨dc, bf, rn, ra,
        ⟨f.name, f.attrs, f.children ++ [.comment t]⟩ :: fs, rc, af⟩ rest := by
  conv_lhs => unfold phase2
  unfold p2step
  dsimp only
  rw [unescape_escText]

theorem phase2_step_comment_after (ucd : Ucd) (dc : Option XDecl)
    (bf : List XNode) (rn : Chars) (ra : List (Chars × Chars))
    (rc af : List XNode) (rest : List (Except Unit XmlEvent)) (t : Chars) :
    phase2 ⟨dc, bf, rn, ra, [], rc, af⟩
        (.ok (.comment (escText ucd t)) :: rest) =
      phase2 ⟨dc, bf, rn, ra, [], rc, af ++ [.comment t]⟩ rest := by
  conv_lhs => unfold phase2
  unfold p2step
  dsimp only
  rw [unescape_escText]

theorem phase2_step_emptyTag (ucd : Ucd) (dc : Option XDecl) (bf : List XNode)
    (rn : Chars) (ra : List (Chars × Chars)) (f : Frame) (fs : List Frame)
    (rc af : List XNode) (rest : List (Except Unit XmlEvent)) {name : Chars}
    (hn : isValidQName name = true) {attrs : List (Chars × Chars)}
    (hattrs : AttrsOk attrs) :
    phase2 ⟨dc, bf, rn, ra, f :: fs, rc, af⟩
        (.ok (.emptyTag name (escAttrs ucd attrs)) :: rest) =
      phase2 ⟨dc, bf, rn, ra,
        ⟨f.name, f.attrs, f.children ++ [.element name attrs []]⟩ :: fs,
        rc, af⟩ rest := by
  conv_lhs => unfold phase2
  unfold p2step
  dsimp only
  rw [if_pos hn]
  rw [buildAttrs_rebuild ucd attrs [] hattrs.1 hattrs.2 (by simp)]
  dsimp only
  rw [List.nil_append]

theorem phase2_step_startTag (ucd : Ucd) (dc : Option XDecl) (bf : List XNode)
    (rn : Chars) (ra : List (Chars × Chars)) (f : Frame) (fs : List Frame)
    (rc af : List XNode) (rest : List (Except Unit XmlEvent)) {name : Chars}
    (hn : isValidQName name = true) {attrs : List (Chars × Chars)}
    (hattrs : AttrsOk attrs) :
    phase2 ⟨dc, bf, rn, ra, f :: fs, rc, af⟩
        (.ok (.startTag name (escAttrs ucd attrs)) :: rest) =
      phase2 ⟨dc, bf, rn, ra, ⟨name, attrs, []⟩ :: f :: fs, rc, af⟩ rest := by
  conv_lhs => unfold phase2
  unfold p2step
  dsimp only
  rw [if_pos hn]
  rw [buildAttrs_rebuild ucd attrs [] hattrs.1 hattrs.2 (by simp)]
  dsimp only
  rw [List.nil_append]

theorem phase2_step_endTag_pop (dc : Option XDecl) (bf : List XNode)
    (rn : Chars) (ra : List (Chars × Chars)) (f g : Frame) (fs : List Frame)
    (rc af : List XNode) (rest : List (Except Unit XmlEvent)) (en : Chars) :
    phase2 ⟨dc, bf, rn, ra, f :: g :: fs, rc, af⟩ (.ok (.endTag en) :: rest) =
      phase2 ⟨dc, bf, rn, ra,
        ⟨g.name, g.attrs, g.children ++ [.element f.name f.attrs f.children]⟩
          :: fs, rc, af⟩ rest := rfl

theorem phase2_step_endTag_root (dc : Option XDecl) (bf : List XNode)
    (rn : Chars) (ra : List (Chars × Chars)) (f : Frame)
    (rc af : List XNode) (rest : List (Except Unit XmlEvent)) (en : Chars) :
    phase2 ⟨dc, bf, rn, ra, [f], rc, af⟩ (.ok (.endTag en) :: rest) =
      phase2 ⟨dc, bf, rn, ra, [], f.children, af⟩ rest := rfl

theorem phase2_nil (st : P2State) : phase2 st [] = .ok (p2doc st) := rfl
mutual

theorem p2_node (ucd : Ucd) :
    ∀ (n : XNode), NodeOk n → ∀ (dc : Option XDecl) (bf : List XNode)
      (rn : Chars) (ra : List (Chars × Chars)) (f : Frame) (fs : List Frame)
      (rc af : List XNode) (rest : List (Except Unit XmlEvent)),
      phase2 ⟨dc, bf, rn, ra, f :: fs, rc, af⟩
          ((eventsOfNode ucd n).map Except.ok ++ rest) =
        phase2 ⟨dc, bf, rn, ra, ⟨f.name, f.attrs, f.children ++ [n]⟩ :: fs,
          rc, af⟩ rest
  | .element name attrs children, h, dc, bf, rn, ra, f, fs, rc, af, rest => by
    obtain ⟨hn, hattrs, hch⟩ := h
    cases children with
    | nil =>
      show phase2 _ (.ok (.emptyTag name (escAttrs ucd attrs)) :: rest) = _
      exact phase2_step_emptyTag ucd dc bf rn ra f fs rc af rest hn hattrs
    | cons c cs =>
      have e : (eventsOfNode ucd (.element name attrs (c :: cs))).map
          Except.ok ++ rest =
          .ok (.startTag name (escAttrs ucd attrs)) ::
            ((eventsOfNodes ucd (c :: cs)).map Except.ok ++
              (.ok (.endTag name) :: rest)) := by
        show (XmlEvent.startTag name (escAttrs ucd attrs) ::
          (eventsOfNodes ucd (c :: cs) ++ [.endTag name])).map Except.ok ++
            rest = _
        simp [List.append_assoc]
      rw [e, phase2_step_startTag ucd dc bf rn ra f fs rc af _ hn hattrs,
        p2_nodes ucd (c :: cs) hch dc bf rn ra ⟨name, attrs, []⟩ (f :: fs)
          rc af _]
      show phase2 _ (.ok (.endTag name) :: rest) = _
      rw [phase2_step_endTag_pop]
      simp only [List.nil_append]
  | .text s, h, dc, bf, rn, ra, f, fs, rc, af, rest => by
    show phase2 _ (.ok (.text (escText ucd s)) :: rest) = _
    exact phase2_step_text ucd dc bf rn ra f fs rc af rest h
  | .cdataSection s, _, dc, bf, rn, ra, f, fs, rc, af, rest => by
    show phase2 _ (.ok (.cdata s) :: rest) = _
    exact phase2_step_cdata dc bf rn ra f fs rc af rest s
  | .comment t, _, dc, bf, rn, ra, f, fs, rc, af, rest => by
    show phase2 _ (.ok (.comment (escText ucd t)) :: rest) = _
    exact phase2_step_comment ucd dc bf rn ra f fs rc af rest t
  | .documentType _, h, _, _, _, _, _, _, _, _, _ => h.elim
  | .processingInstruction _, h, _, _, _, _, _, _, _, _, _ => h.elim

theorem p2_nodes (ucd : Ucd) :
    ∀ (ns : List XNode), NodesOk ns → ∀ (dc : Option XDecl) (bf : List XNode)
      (rn : Chars) (ra : List (Chars × Chars)) (f : Frame) (fs : List Frame)
      (rc af : List XNode) (rest : List (Except Unit XmlEvent)),
      phase2 ⟨dc, bf, rn, ra, f :: fs, rc, af⟩
          ((eventsOfNodes ucd ns).map Except.ok ++ rest) =
        phase2 ⟨dc, bf, rn, ra, ⟨f.name, f.attrs, f.children ++ ns⟩ :: fs,
          rc, af⟩ rest
  | [], _, dc, bf, rn, ra, f, fs, rc, af, rest => by
    show phase2 _ ([] ++ rest) = _
    rw [List.nil_append]
    simp only [List.append_nil]
  | n :: ns, h, dc, bf, rn, ra, f, fs, rc, af, rest => by
    obtain ⟨h1, h2⟩ := NodesOk_cons h
    rw [show (eventsOfNodes ucd (n :: ns)).map Except.ok ++ rest =
      (eventsOfNode ucd n).map Except.ok ++
        ((eventsOfNodes ucd ns).map Except.ok ++ rest) from by
      show ((eventsOfNode ucd n ++ eventsOfNodes ucd ns).map Except.ok) ++
        rest = _
      simp [List.append_assoc]]
    rw [p2_node ucd n h1 dc bf rn ra f fs rc af _,
      p2_nodes ucd ns h2 dc bf rn ra ⟨f.name, f.attrs, f.children ++ [n]⟩ fs
        rc af rest]
    simp only [List.append_assoc, List.singleton_append]

end

theorem phase2_after (ucd : Ucd) :
    ∀ (ns : List XNode), NodesChainOk AfterNodeOk ns →
      ∀ (dc : Option XDecl) (bf : List XNode) (rn : Chars)
        (ra : List (Chars × Chars)) (rc af : List XNode)
        (rest : List (Except Unit XmlEvent)),
      phase2 ⟨dc, bf, rn, ra, [], rc, af⟩
          ((eventsOfNodes ucd ns).map Except.ok ++ rest) =
        phase2 ⟨dc, bf, rn, ra, [], rc, af ++ ns⟩ rest := by
  intro ns
  induction ns with
  | nil =>
    intro _ dc bf rn ra rc af rest
    show phase2 _ ([] ++ rest) = _
    rw [List.nil_append]
    simp only [List.append_nil]
  | cons n ns ih =>
    intro h dc bf rn ra rc af rest
    obtain ⟨h1, h2⟩ := NodesChainOk_cons h
    rw [show (eventsOfNodes ucd (n :: ns)).map Except.ok ++ rest =
      (eventsOfNode ucd n).map Except.ok ++
        ((eventsOfNodes ucd ns).map Except.ok ++ rest) from by
      show ((eventsOfNode ucd n ++ eventsOfNodes ucd ns).map Except.ok) ++
        rest = _
      simp [List.append_assoc]]
    have hstep : phase2 ⟨dc, bf, rn, ra, [], rc, af⟩
        ((eventsOfNode ucd n).map Except.ok ++
          ((eventsOfNodes ucd ns).map Except.ok ++ rest)) =
        phase2 ⟨dc, bf, rn, ra, [], rc, af ++ [n]⟩
          ((eventsOfNodes ucd ns).map Except.ok ++ rest) := by
      cases n with
      | text s =>
        show phase2 _ (.ok (.text (escText ucd s)) :: _) = _
        exact phase2_step_text_after ucd dc bf rn ra rc af _ h1
      | cdataSection s =>
        show phase2 _ (.ok (.cdata s) :: _) = _
        exact phase2_step_cdata_after dc bf rn ra rc af _ s
      | comment t =>
        show phase2 _ (.ok (.comment (escText ucd t)) :: _) = _
        exact phase2_step_comment_after ucd dc bf rn ra rc af _ t
      | documentType s => exact h1.elim
      | element name attrs children => exact h1.elim
      | processingInstruction s => exact h1.elim
    rw [hstep, ih h2]
    simp [List.append_assoc]
theorem phase1_root_empty (ucd : Ucd) (dc : Option XDecl) (bf : List XNode)
    (rest : List (Except Unit XmlEvent)) {name : Chars}
    (hn : isValidQName name = true) {attrs : List (Chars × Chars)}
    (hattrs : AttrsOk attrs) :
    phase1 dc bf (.ok (.emptyTag name (escAttrs ucd attrs)) :: rest) =
      phase2 ⟨dc, bf, name, attrs, [], [], []⟩ rest := by
  conv_lhs => unfold phase1
  dsimp only
  rw [if_pos hn,
    buildRootAttrs_rebuild ucd attrs [] hattrs.1 hattrs.2 (by simp)]
  dsimp only
  rw [List.nil_append]

theorem phase1_root_start (ucd : Ucd) (dc : Option XDecl) (bf : List XNode)
    (rest : List (Except Unit XmlEvent)) {name : Chars}
    (hn : isValidQName name = true) {attrs : List (Chars × Chars)}
    (hattrs : AttrsOk attrs) :
    phase1 dc bf (.ok (.startTag name (escAttrs ucd attrs)) :: rest) =
      phase2 ⟨dc, bf, name, attrs, [⟨name, [], []⟩], [], []⟩ rest := by
  conv_lhs => unfold phase1
  dsimp only
  rw [if_pos hn,
    buildRootAttrs_rebuild ucd attrs [] hattrs.1 hattrs.2 (by simp)]
  dsimp only
  rw [List.nil_append]

theorem from_reader_events (ucd : Ucd) (d : XDoc) (h : Loadable d) :
    from_reader ((eventsOfDoc ucd d).map Except.ok) = .ok d := by
  obtain ⟨hdecl, hbefore, hname, hattrs, hchildren, hafter⟩ := h
  unfold from_reader eventsOfDoc
  simp only [List.map_append]
  have hrootPart : ∀ (dc : Option XDecl),
      phase1 dc d.before
        ((eventsOfNode ucd
          (.element d.rootName d.rootAttrs d.rootChildren)).map Except.ok ++
            (eventsOfNodes ucd d.after).map Except.ok) =
        .ok ⟨dc, d.before, d.rootName, d.rootAttrs, d.rootChildren,
          d.after⟩ := by
    intro dc
    cases hrc : d.rootChildren with
    | nil =>
      show phase1 dc d.before
        (.ok (.emptyTag d.rootName (escAttrs ucd d.rootAttrs)) ::
          (eventsOfNodes ucd d.after).map Except.ok) = _
      rw [phase1_root_empty ucd dc d.before _ hname hattrs,
        show (eventsOfNodes ucd d.after).map Except.ok =
          (eventsOfNodes ucd d.after).map Except.ok ++ [] from
          (List.append_nil _).symm,
        phase2_after ucd d.after hafter dc d.before d.rootName d.rootAttrs
          [] [] [], phase2_nil]
      simp [p2doc, finalChildren]
    | cons c cs =>
      rw [show (eventsOfNode ucd
          (.element d.rootName d.rootAttrs (c :: cs))).map Except.ok ++
          (eventsOfNodes ucd d.after).map Except.ok =
          .ok (.startTag d.rootName (escAttrs ucd d.rootAttrs)) ::
            ((eventsOfNodes ucd (c :: cs)).map Except.ok ++
              (.ok (.endTag d.rootName) ::
                (eventsOfNodes ucd d.after).map Except.ok)) from by
        show (XmlEvent.startTag d.rootName (escAttrs ucd d.rootAttrs) ::
          (eventsOfNodes ucd (c :: cs) ++ [.endTag d.rootName])).map
            Except.ok ++ _ = _
        simp [List.append_assoc]]
      rw [phase1_root_start ucd dc d.before _ hname hattrs,
        p2_nodes ucd (c :: cs) (hrc ▸ hchildren) dc d.before d.rootName
          d.rootAttrs ⟨d.rootName, [], []⟩ [] [] [] _]
      show phase2 _ (.ok (.endTag d.rootName) :: _) = _
      rw [phase2_step_endTag_root,
        show (eventsOfNodes ucd d.after).map Except.ok =
          (eventsOfNodes ucd d.after).map Except.ok ++ [] from
          (List.append_nil _).symm,
        phase2_after ucd d.after hafter dc d.before d.rootName d.rootAttrs
          ([] ++ (c :: cs)) [] [], phase2_nil]
      simp [p2doc, finalChildren]
  cases hd : d.decl with
  | none =>
    dsimp only
    rw [List.map_nil, List.nil_append,
      phase1_before ucd d.before hbefore none [] _, List.nil_append,
      hrootPart none, ← hd]
  | some dl =>
    dsimp only
    rw [List.map_cons, List.map_nil, List.singleton_append,
      phase1_step_decl, phase1_before ucd d.before hbefore _ [] _,
      List.nil_append,
      hrootPart (some ⟨dl.version, dl.encoding, dl.standalone⟩),
      show (⟨dl.version, dl.encoding, dl.standalone⟩ : XDecl) = dl from rfl,
      ← hd]
/-- C1: corrected round-trip.  The unrestricted claim is false (see
`C1_counterexample_empty_tag_normalized`: `<root></root>` loads to a
childless root that re-serializes as `<root />`).  On the image of the
serializer the guarantee holds exactly: for every `Loadable` document —
well-formed names and attribute tables, no whitespace-only or adjacent
text nodes, no `]]>` inside CDATA, trimmed `&`/`>`-free doctypes confined
to the pre-root region, declaration values free of `"` and `?` — parsing
the non-pretty serialization returns exactly the same document, so
serialize-then-parse-then-serialize reproduces the text byte for byte. -/
theorem C1_round_trip_on_serializer_image (ucd : Ucd) (d : XDoc)
    (h : Loadable d) : from_str (to_string ucd d) = .ok d := by
  unfold from_str
  rw [lex_to_string ucd d h]
  exact from_reader_events ucd d h

theorem C1_round_trip_on_serializer_image_witness :
    from_str (to_string asciiUcd
      ⟨some ⟨some (str "1.0"), none, none⟩,
        [.comment (str "hi")],
        str "root", [(str "id", str "v")],
        [.element (str "a") [] [], .text (str "x")],
        [.comment (str "bye")]⟩) =
      .ok ⟨some ⟨some (str "1.0"), none, none⟩,
        [.comment (str "hi")],
        str "root", [(str "id", str "v")],
        [.element (str "a") [] [], .text (str "x")],
        [.comment (str "bye")]⟩ :=
  C1_round_trip_on_serializer_image asciiUcd _
    ⟨⟨fun v hv => by
        cases hv
        exact (by decide : '"' ∉ str "1.0" ∧ '?' ∉ str "1.0"),
      fun v hv => Option.noConfusion hv,
      fun v hv => Option.noConfusion hv⟩,
     trivial,
     by decide,
     ⟨by decide, by decide⟩,
     ⟨⟨by decide, ⟨by decide, by decide⟩, trivial⟩,
      by decide,
      show rustTrim (str "x") ≠ [] by decide⟩,
     trivial⟩
